import Mathlib

/-!
# Verification of the 1brc parallel aggregation pipeline

Shallow embedding of the repository's core (the `part_000` variant: sharded
key interner, chunked line scanner `parseChunkIDs`, per-chunk aggregation and
final merge, plus the partitioner in `main`), with the claims of the
specification settled against it.

Bytes are modelled as `Nat` (the sources index raw `[]byte` buffers); a
buffer or key is a `List Nat`.  Go's `int32` arithmetic in the value parser
wraps, which is modelled explicitly by `wrap32`; `int64` accumulators
(`sum`, `count`) are modelled as unbounded `Int` — no claim depends on
behaviour at magnitudes near `2^63`.
-/

/-- Byte codes used by the sources: `'\n' = 10`, `';' = 59`, `'-' = 45`,
`'+' = 43`, `'.' = 46`, `'0' = 48 … '9' = 57`. -/
def nlByte : Nat := 10

/-- `Stat` from `part_000`: metrics in integer tenths
(`min`, `max` are `int32`; `sum`, `count` are `int64` in Go). -/
structure Stat where
  min : Int
  max : Int
  sum : Int
  count : Int
deriving DecidableEq, Repr

/-- A Go `map[int32]Stat` keyed through the interner is modelled as an
association list keyed directly by the interned byte-sequence: the interner
assigns a distinct identifier to each distinct byte-sequence (proved below
for claims C5/C10), so the identifier key and the byte-sequence key are in
bijection and the maps coincide up to that bijection.  Insertion order is
kept; Go map iteration order is arbitrary, so all mapping-level claims are
stated pointwise via `lookupA`. -/
abbrev AMap := List (List Nat × Stat)

/-- Lookup in an association-list map (Go: `m[cityID]`). -/
def lookupA : AMap → List Nat → Option Stat
  | [], _ => none
  | (k', s) :: t, k => if k = k' then some s else lookupA t k

/-- Accumulator update for one observation, Go `parseChunkIDs`:
`if tenth < st.min { st.min = tenth }; if tenth > st.max { ... };
st.sum += int64(tenth); st.count++`. -/
def updStat (st : Stat) (v : Int) : Stat :=
  ⟨Min.min st.min v, Max.max st.max v, st.sum + v, st.count + 1⟩

/-- Map update for one observation, Go `parseChunkIDs`: update the entry in
place when the key is present, otherwise insert `{min: v, max: v, sum: v,
count: 1}`. -/
def updateA : AMap → List Nat → Int → AMap
  | [], k, v => [(k, ⟨v, v, v, 1⟩)]
  | (k', s) :: t, k, v =>
      if k = k' then (k', updStat s v) :: t else (k', s) :: updateA t k v

/-- Folding a whole sequence of `(key bytes, tenths)` observations into a
local mapping; `parseChunkIDs` interleaves this with scanning, and the map
contents depend only on the observation sequence. -/
def aggregate (cs : List (List Nat × Int)) : AMap :=
  cs.foldl (fun m kv => updateA m kv.1 kv.2) []

/-- Per-key combination rule of the final merge in `main` (`part_000`
lines 193–210): `min = min(g.min, st.min)`, `max = max(g.max, st.max)`,
`sum = g.sum + st.sum`, `count = g.count + st.count`. -/
def mergeStat (g st : Stat) : Stat :=
  ⟨Min.min g.min st.min, Max.max g.max st.max, g.sum + st.sum, g.count + st.count⟩

/-- Inserting one entry of a local map into the global map (`main`): copy it
when the key is absent, combine with `mergeStat` when present. -/
def mergeKey : AMap → List Nat × Stat → AMap
  | [], e => [e]
  | (k', s) :: t, (k, st) =>
      if k = k' then (k', mergeStat s st) :: t else (k', s) :: mergeKey t (k, st)

/-- Merging one whole local map into the global map (`main`:
`for id, st := range m { ... }`). -/
def mergeInto (g : AMap) (m : AMap) : AMap := m.foldl mergeKey g

/-- Merging the list of all local maps, in worker-index order
(`main`: `for _, m := range locals`). -/
def mergeAll (ls : List AMap) : AMap := ls.foldl mergeInto []

/-- Two's-complement wrap-around of Go `int32` arithmetic. -/
def wrap32 (x : Int) : Int := (x + 2 ^ 31) % 2 ^ 32 - 2 ^ 31

/-- Digit test of `parseChunkIDs`: `c >= '0' && c <= '9'`. -/
def isDigit (c : Nat) : Bool := 48 ≤ c && c ≤ 57

/-- The semicolon search of `parseChunkIDs` (lines 228–247): scan forward
for `';'`, accumulating the current line's bytes; a `'\n'` before any `';'`
resets the line start (Go: `lineStart = i`); reaching the end of the buffer
without `';'` gives `none` (Go: `semi < 0` → `break`).  `acc` holds the
current line's bytes in reverse. -/
def findKey (acc : List Nat) : List Nat → Option (List Nat × List Nat)
  | [] => none
  | b :: r =>
      if b = 59 then some (acc.reverse, r)
      else if b = 10 then findKey [] r
      else findKey (b :: acc) r

/-- Optional sign of the value (`parseChunkIDs` lines 250–259). -/
def parseSign : List Nat → Int × List Nat
  | [] => (1, [])
  | c :: r => if c = 45 then (-1, r) else if c = 43 then (1, r) else (1, c :: r)

/-- Integer-part loop (`parseChunkIDs` lines 260–269):
`intPart = intPart*10 + int32(c-'0')` over leading digits, `int32` wrapping. -/
def parseDigits (ip : Int) : List Nat → Int × List Nat
  | [] => (ip, [])
  | c :: r =>
      if isDigit c then parseDigits (wrap32 (ip * 10 + ((c : Int) - 48))) r
      else (ip, c :: r)

/-- Optional decimal point (`parseChunkIDs` lines 270–272). -/
def skipDot : List Nat → List Nat
  | [] => []
  | c :: r => if c = 46 then r else c :: r

/-- Optional single fractional digit (`parseChunkIDs` lines 273–280). -/
def parseDec : List Nat → Int × List Nat
  | [] => (0, [])
  | c :: r => if isDigit c then ((c : Int) - 48, r) else (0, c :: r)

/-- Consume the rest of the line up to and including the newline
(`parseChunkIDs` lines 281–287). -/
def skipToNL : List Nat → List Nat
  | [] => []
  | b :: r => if b = 10 then r else skipToNL r

/-- The whole value phase of one `parseChunkIDs` iteration: parse the tenths
value after the `';'` and return it with the remainder of the buffer after
the current line.  `tenth := sign * (intPart*10 + decDigit)` with `int32`
wrapping at each operation. -/
def parseValRest (r : List Nat) : Int × List Nat :=
  let sr := parseSign r
  let ir := parseDigits 0 sr.2
  let dr := parseDec (skipDot ir.2)
  (wrap32 (sr.1 * wrap32 (wrap32 (ir.1 * 10) + dr.1)), skipToNL dr.2)

/-- The tenths value obtained from a value byte-sequence (first component of
`parseValRest`). -/
def parseVal (r : List Nat) : Int := (parseValRest r).1

/-- Fuel-indexed scanning loop of `parseChunkIDs`: the sequence of
`(key bytes, tenths)` observations produced for a buffer.  Each iteration
consumes at least the `';'`, so `buf.length` fuel always suffices
(`scanChunkF_congr`). -/
def scanChunkF : Nat → List Nat → List (List Nat × Int)
  | 0, _ => []
  | fuel + 1, buf =>
      match findKey [] buf with
      | none => []
      | some (k, r) => (k, (parseValRest r).1) :: scanChunkF fuel (parseValRest r).2

/-- The observation sequence `parseChunkIDs` extracts from a buffer. -/
def scanChunk (buf : List Nat) : List (List Nat × Int) := scanChunkF buf.length buf

/-- `parseChunkIDs buf` (Go: `parseChunkIDs(buf, m, intern)` starting from an
empty map `m`): the local mapping built from a buffer, keyed by the raw key
bytes (see `AMap`). -/
def parseChunkIDs (buf : List Nat) : AMap := aggregate (scanChunk buf)

/-!
## Partitioner (`main` in `part_000`, lines 152–188)
-/

/-- Fuel-indexed version of the boundary alignment loops of `main`:
first index `j` with `s ≤ j < e` and `data[j] = '\n'`, or `e` (or `s` when
`e ≤ s`) when there is none; `e - s` fuel always suffices. -/
def findNLF : Nat → List Nat → Nat → Nat → Nat
  | 0, _, s, _ => s
  | fuel + 1, data, s, e =>
      if s < e then (if data.getD s 0 = 10 then s else findNLF fuel data (s + 1) e)
      else s

/-- The index where the newline-alignment scan of `main` stops when started
at `s` with bound `e`. -/
def findNL (data : List Nat) (s e : Nat) : Nat := findNLF (e - s) data s e

/-- The byte range `[start, end)` worker `i` of `workers` receives (`main`
lines 159–179): naive boundaries `[i*chunk, i*chunk+chunk)` with
`chunk = len/workers` (the last worker's end is `len`); for `i > 0` the
start is advanced to just past the first newline before the naive end
(unchanged if none is found); for `i < workers-1` the end is advanced to
the first newline at or after the naive end (exclusive of that newline). -/
def chunkRange (data : List Nat) (workers i : Nat) : Nat × Nat :=
  let n := data.length
  let c := n / workers
  let s0 := i * c
  let e0 := if i = workers - 1 then n else s0 + c
  let s1 :=
    if 0 < i then
      let j := findNL data s0 e0
      if j < e0 then j + 1 else j
    else s0
  let e1 := if i < workers - 1 then findNL data e0 n else e0
  (s1, e1)

/-- The bytes of worker `i`'s partition (Go: `data[s:e]`). -/
def chunkBytes (data : List Nat) (workers i : Nat) : List Nat :=
  ((data.drop (chunkRange data workers i).1).take
    ((chunkRange data workers i).2 - (chunkRange data workers i).1))

/-- All partitions, in worker order. -/
def parts (data : List Nat) (workers : Nat) : List (List Nat) :=
  (List.range workers).map (chunkBytes data workers)

/-- The global mapping produced by the parallel pipeline: per-partition
local maps (`parseChunkIDs`), merged in worker order (`main` lines
193–210). -/
def globalMap (data : List Nat) (workers : Nat) : AMap :=
  mergeAll ((parts data workers).map parseChunkIDs)

/-- Sequential processing of the whole input: one aggregator over the whole
buffer. -/
def seqMap (data : List Nat) : AMap := parseChunkIDs data

/-- Total `count` over all keys of a mapping. -/
def totalCount (m : AMap) : Int := (m.map (fun e => e.2.count)).sum

/-!
## Line-based characterization of the scanner
-/

/-- The lines of a buffer, split at each newline byte; the final line is the
(possibly empty) segment after the last newline. -/
def splitNL : List Nat → List (List Nat)
  | [] => [[]]
  | b :: r =>
      if b = 10 then [] :: splitNL r
      else
        match splitNL r with
        | l :: ls => (b :: l) :: ls
        | [] => [[b]]

/-- First-semicolon split of a single (newline-free) line: the key bytes
before the first `';'` and the value region after it. -/
def lineSemi : List Nat → Option (List Nat × List Nat)
  | [] => none
  | b :: r =>
      if b = 59 then some ([], r)
      else (lineSemi r).map (fun p => (b :: p.1, p.2))

/-- The observation one line contributes: `none` when the line has no
delimiter (it is skipped), otherwise the key and the leniently parsed tenths
value. -/
def contribLine (l : List Nat) : Option (List Nat × Int) :=
  (lineSemi l).map (fun p => (p.1, parseVal p.2))

/-- Number of lines of a buffer that contain the `';'` delimiter. -/
def linesWithSemi (buf : List Nat) : Nat :=
  ((splitNL buf).filter (fun l => decide ((59 : Nat) ∈ l))).length

/-!
## Pointwise semantics of aggregation and merging
-/

/-- One observation applied to an optional accumulator: fresh entry when the
key was absent, `updStat` when present. -/
def bump : Option Stat → Int → Stat
  | none, v => ⟨v, v, v, 1⟩
  | some s, v => updStat s v

/-- The accumulator a key ends up with after a sequence of observations. -/
def accOf (cs : List (List Nat × Int)) (k : List Nat) : Option Stat :=
  cs.foldl (fun o kv => if kv.1 = k then some (bump o kv.2) else o) none

/-- Pointwise combination of two optional accumulators (the merge rule,
lifted to keys possibly absent on either side). -/
def combineOpt : Option Stat → Option Stat → Option Stat
  | none, b => b
  | some a, none => some a
  | some a, some b => some (mergeStat a b)

/-- `mergeKey`'s effect on the combined entry. -/
def combineEntry : Option Stat → Stat → Stat
  | none, st => st
  | some s, st => mergeStat s st

/-- The keys of a mapping, in entry order. -/
def keysOf (m : AMap) : List (List Nat) := m.map Prod.fst

/-- Every naive boundary window `[i*chunk, (i+1)*chunk)` of the partitioner,
`1 ≤ i < workers`, contains a newline byte.  Under this condition the
adjusted partitions tile the input; without it the partitioner drops or
duplicates data (see the counterexamples for C1, C6 and C9). -/
def windowsOk (data : List Nat) (workers : Nat) : Prop :=
  ∀ i ∈ List.range workers, 1 ≤ i →
    findNL data (i * (data.length / workers)) ((i + 1) * (data.length / workers)) <
      (i + 1) * (data.length / workers)

instance windowsOkDec (data : List Nat) (workers : Nat) : Decidable (windowsOk data workers) := by
  unfold windowsOk
  infer_instance

/-- The first newline at or after the naive boundary `i*chunk`. -/
def nlPos (data : List Nat) (workers i : Nat) : Nat :=
  findNL data (i * (data.length / workers)) data.length

/-- `glue` re-inserts the single newline byte separating consecutive
partitions (each interior partition boundary of the partitioner excludes
that newline from BOTH neighbouring partitions). -/
def glue : List (List Nat) → List Nat
  | [] => []
  | [c] => c
  | c :: rest => c ++ 10 :: glue rest

/-!
## Value parser on well-formed value byte-sequences
-/

/-- Numeric value of a digit string (most significant first). -/
def digitsToNat (ds : List Nat) : Nat := ds.foldl (fun a c => a * 10 + (c - 48)) 0

/-- `digitsToNat` with an accumulator (the running `intPart`). -/
def digitsFrom (a : Nat) (ds : List Nat) : Nat := ds.foldl (fun a c => a * 10 + (c - 48)) a

/-!
## The key interner (`Intern` of `part_000`)
-/

/-- FNV-1a 64-bit hash exactly as written in `part_000` (`fnv1a64`): note the
source file's offset constant is `1469598103934665603`, not the textbook
FNV offset basis; the model copies the source.  `uint64` multiplication
wraps, modelled by the `% 2 ^ 64`. -/
def fnv1a64 (b : List Nat) : Nat :=
  b.foldl (fun h c => (Nat.xor h c * 1099511628211) % 2 ^ 64) 1469598103934665603

/-- `equalSB` from `part_000`: true exactly when the stored string and the
candidate bytes agree byte for byte (the Go code compares lengths, then each
index; the recursion is the same function on lists). -/
def equalSB : List Nat → List Nat → Bool
  | [], [] => true
  | a :: s, b :: t => a = b && equalSB s t
  | _, _ => false

/-- The interner state of `part_000`: `names` is the append-only id → key
table; `buckets` models the 256 shards each holding `map[uint64][]int32`
keyed by the full 64-bit hash.  The shard index is `hash & 255`, a function
of the hash, so the pair (shard index, map key) carries exactly the
information of the single hash value and the shards are modelled as one
association list keyed by the hash. -/
structure Intern where
  buckets : List (Nat × List Nat)
  names : List (List Nat)

/-- Hash-bucket read (`sh.m[h]`, empty list when absent). -/
def bucketGet : List (Nat × List Nat) → Nat → List Nat
  | [], _ => []
  | (h', ids) :: t, h => if h = h' then ids else bucketGet t h

/-- Hash-bucket write (`sh.m[h] = ids`). -/
def bucketPut : List (Nat × List Nat) → Nat → List Nat → List (Nat × List Nat)
  | [], h, ids => [(h, ids)]
  | (h', ids0) :: t, h, ids =>
      if h = h' then (h', ids) :: t else (h', ids0) :: bucketPut t h ids

def Intern.empty : Intern := ⟨[], []⟩

/-- `Intern.Name`: resolve an id to its key bytes (`in.names[id]`). -/
def Intern.Name (st : Intern) (id : Nat) : List Nat := st.names.getD id []

/-- `Intern.GetOrAdd` from `part_000`, sequentialised (the Go code guards the
same read-check / allocate / insert sequence with per-shard and counter
locks; the claims about identifier correctness are settled on the
sequential interleaving): hash the key, scan the bucket's candidate ids
comparing full bytes (`equalSB`), and on a miss append the key to `names`
(its id is the previous length) and register the id in the bucket
(`sh.m[h] = append(ids, id)`). -/
def Intern.GetOrAdd (st : Intern) (b : List Nat) : Nat × Intern :=
  let h := fnv1a64 b
  let ids := bucketGet st.buckets h
  match ids.find? (fun id => equalSB (st.names.getD id []) b) with
  | some id => (id, st)
  | none =>
      (st.names.length,
        ⟨bucketPut st.buckets h (ids ++ [st.names.length]), st.names ++ [b]⟩)

/-- Run a sequence of intern calls, collecting the returned ids in order. -/
def runIntern : Intern → List (List Nat) → List Nat × Intern
  | st, [] => ([], st)
  | st, b :: rest =>
      ((Intern.GetOrAdd st b).1 :: (runIntern (Intern.GetOrAdd st b).2 rest).1,
        (runIntern (Intern.GetOrAdd st b).2 rest).2)

/-- Invariant of reachable interner states: every bucket id is a valid index
whose name hashes to the bucket's key, every name's index is registered in
its hash's bucket, and no name is stored twice. -/
def InternWf (st : Intern) : Prop :=
  (∀ h id, id ∈ bucketGet st.buckets h →
      id < st.names.length ∧ fnv1a64 (st.names.getD id []) = h) ∧
  (∀ j, j < st.names.length → j ∈ bucketGet st.buckets (fnv1a64 (st.names.getD j []))) ∧
  st.names.Nodup

/-- Index of the first occurrence of a key in the name table. -/
def idxOf : List (List Nat) → List Nat → Nat
  | [], _ => 0
  | x :: t, b => if x = b then 0 else idxOf t b + 1

/-!
## Empty-input behaviour (`part_000` lines 131–134, `go_v1` lines 41–44)
-/

/-- Outcome of a run of `main`: `exitOk r` is a normal return (exit status
zero) carrying the produced global mapping, or `none` when the run returned
before producing one; `fatal msg` models a Go `panic(err)`. -/
inductive Outcome where
  | exitOk : Option AMap → Outcome
  | fatal : String → Outcome
deriving DecidableEq

/-- The byte-level control flow of `main` in `part_000`: the `size == 0`
check (lines 131–134) returns silently — no output, no error, exit status
zero — and otherwise the pipeline runs to completion and produces the global
mapping.  File-system failures (`os.Open`, `Stat`, `Mmap` errors) are
environment conditions outside the byte-level embedding; the same early
`return` appears in `part_002` (lines 49–52).  `workers` is the worker
count (the source uses `min(NumCPU, 8)`). -/
def mainPart000 (data : List Nat) (workers : Nat) : Outcome :=
  if data.length = 0 then Outcome.exitOk none
  else Outcome.exitOk (some (globalMap data workers))

/-- The empty-file check of `mmapFile` in `go_v1/main.go` (lines 41–44):
size zero yields the explicit error `"file empty"` (which `main` there turns
into a panic). -/
def mmapFileCheck (size : Nat) : Except String Unit :=
  if size = 0 then Except.error "file empty" else Except.ok ()

/-- Whether an outcome is a failure signal. -/
def isFatal : Outcome → Bool
  | Outcome.exitOk _ => false
  | Outcome.fatal _ => true

/-!
## Concrete inputs used by counterexamples and witnesses
-/

/-- Bytes of `"A;1"` (one well-formed line, no trailing newline). -/
def cexC1Data : List Nat := [65, 59, 49]

/-- Bytes of `"A;1\nB;2\nC;3\n"`. -/
def wData : List Nat := [65, 59, 49, 10, 66, 59, 50, 10, 67, 59, 51, 10]

/-- Bytes of `"A;1\nB;2\n"`. -/
def cexC6Data : List Nat := [65, 59, 49, 10, 66, 59, 50, 10]

/-- Bytes of `"ab;cd.;\ny"` — one line longer than a chunk, whose only
newline lies beyond the second naive boundary. -/
def cexC9Data : List Nat := [97, 98, 59, 99, 100, 46, 59, 10, 121]

/-- Bytes of `"C;notanumber\n"`. -/
def cexC4Data : List Nat := [67, 59, 110, 111, 116, 97, 110, 117, 109, 98, 101, 114, 10]

/-- Two well-formed local mappings with nodup keys, for the merge-order witness. -/
def demoM1 : AMap := [([65], ⟨10, 30, 40, 2⟩)]

/-- Second local mapping for the merge-order witness. -/
def demoM2 : AMap := [([66], ⟨20, 20, 20, 1⟩), ([65], ⟨5, 5, 5, 1⟩)]

/-!
## Theorems
-/

/-!
## Scanner infrastructure: consumption bounds and unfolding equations
-/

theorem findKey_length {acc buf : List Nat} {k r : List Nat}
    (h : findKey acc buf = some (k, r)) : r.length < buf.length := by
  induction buf generalizing acc with
  | nil => simp [findKey] at h
  | cons b t ih =>
    by_cases h59 : b = 59
    · simp [findKey, h59] at h
      simp [h.2.symm, List.length_cons]
    · by_cases h10 : b = 10
      · simp [findKey, h59, h10] at h
        exact Nat.lt_succ_of_lt (ih h)
      · simp [findKey, h59, h10] at h
        exact Nat.lt_succ_of_lt (ih h)

theorem parseSign_length (r : List Nat) : (parseSign r).2.length ≤ r.length := by
  cases r with
  | nil => simp [parseSign]
  | cons c t =>
    simp only [parseSign]
    split
    · simp
    · split <;> simp

theorem parseDigits_length (ip : Int) (r : List Nat) :
    (parseDigits ip r).2.length ≤ r.length := by
  induction r generalizing ip with
  | nil => simp [parseDigits]
  | cons c t ih =>
    simp only [parseDigits]
    split
    · exact Nat.le_succ_of_le (ih _)
    · simp

theorem skipDot_length (r : List Nat) : (skipDot r).length ≤ r.length := by
  cases r with
  | nil => simp [skipDot]
  | cons c t => simp only [skipDot]; split <;> simp

theorem parseDec_length (r : List Nat) : (parseDec r).2.length ≤ r.length := by
  cases r with
  | nil => simp [parseDec]
  | cons c t => simp only [parseDec]; split <;> simp

theorem skipToNL_length (r : List Nat) : (skipToNL r).length ≤ r.length := by
  induction r with
  | nil => simp [skipToNL]
  | cons c t ih =>
    simp only [skipToNL]
    split
    · simp
    · exact Nat.le_succ_of_le ih

theorem parseValRest_length (r : List Nat) : (parseValRest r).2.length ≤ r.length := by
  simp only [parseValRest]
  calc (skipToNL (parseDec (skipDot (parseDigits 0 (parseSign r).2).2)).2).length
      ≤ (parseDec (skipDot (parseDigits 0 (parseSign r).2).2)).2.length :=
        skipToNL_length _
    _ ≤ (skipDot (parseDigits 0 (parseSign r).2).2).length := parseDec_length _
    _ ≤ (parseDigits 0 (parseSign r).2).2.length := skipDot_length _
    _ ≤ (parseSign r).2.length := parseDigits_length _ _
    _ ≤ r.length := parseSign_length _

theorem scanChunkF_congr : ∀ (f1 : Nat) (buf : List Nat) (f2 : Nat),
    buf.length ≤ f1 → buf.length ≤ f2 → scanChunkF f1 buf = scanChunkF f2 buf := by
  intro f1
  induction f1 with
  | zero =>
    intro buf f2 h1 _
    have : buf = [] := List.length_eq_zero.mp (Nat.le_zero.mp h1)
    subst this
    cases f2 with
    | zero => rfl
    | succ f2 => simp [scanChunkF, findKey]
  | succ f1 ih =>
    intro buf f2 h1 h2
    cases f2 with
    | zero =>
      have : buf = [] := List.length_eq_zero.mp (Nat.le_zero.mp h2)
      subst this
      simp [scanChunkF, findKey]
    | succ f2 =>
      simp only [scanChunkF]
      cases hk : findKey [] buf with
      | none => rfl
      | some p =>
        obtain ⟨k, r⟩ := p
        have hr : r.length < buf.length := findKey_length hk
        have hrest : (parseValRest r).2.length ≤ f1 :=
          le_trans (parseValRest_length r) (Nat.le_of_lt_succ (lt_of_lt_of_le hr h1))
        have hrest2 : (parseValRest r).2.length ≤ f2 :=
          le_trans (parseValRest_length r) (Nat.le_of_lt_succ (lt_of_lt_of_le hr h2))
        simp [ih _ _ hrest hrest2]

theorem scanChunk_eq_none {buf : List Nat} (h : findKey [] buf = none) :
    scanChunk buf = [] := by
  cases buf with
  | nil => rfl
  | cons b t => simp [scanChunk, scanChunkF, h]

theorem scanChunk_eq_some {buf k r : List Nat} (h : findKey [] buf = some (k, r)) :
    scanChunk buf = (k, (parseValRest r).1) :: scanChunk (parseValRest r).2 := by
  cases buf with
  | nil => simp [findKey] at h
  | cons b t =>
    have hr : r.length < (b :: t).length := findKey_length h
    have hrest : (parseValRest r).2.length ≤ t.length :=
      le_trans (parseValRest_length r) (Nat.le_of_lt_succ hr)
    show scanChunkF (t.length + 1) (b :: t) = _
    simp only [scanChunkF, h]
    exact congrArg _ (scanChunkF_congr t.length _ _ hrest le_rfl)

/-!
## The value phase never crosses a line boundary
-/

theorem parseSign_mem {a : Nat} {v : List Nat} (h : a ∈ (parseSign v).2) : a ∈ v := by
  cases v with
  | nil => simpa [parseSign] using h
  | cons c t =>
    simp only [parseSign] at h
    split at h
    · exact List.mem_cons_of_mem _ h
    · split at h
      · exact List.mem_cons_of_mem _ h
      · exact h

theorem parseDigits_mem {a : Nat} {ip : Int} {v : List Nat}
    (h : a ∈ (parseDigits ip v).2) : a ∈ v := by
  induction v generalizing ip with
  | nil => simpa [parseDigits] using h
  | cons c t ih =>
    simp only [parseDigits] at h
    split at h
    · exact List.mem_cons_of_mem _ (ih h)
    · exact h

theorem skipDot_mem {a : Nat} {v : List Nat} (h : a ∈ skipDot v) : a ∈ v := by
  cases v with
  | nil => simpa [skipDot] using h
  | cons c t =>
    simp only [skipDot] at h
    split at h
    · exact List.mem_cons_of_mem _ h
    · exact h

theorem parseDec_mem {a : Nat} {v : List Nat} (h : a ∈ (parseDec v).2) : a ∈ v := by
  cases v with
  | nil => simpa [parseDec] using h
  | cons c t =>
    simp only [parseDec] at h
    split at h
    · exact List.mem_cons_of_mem _ h
    · exact h

theorem parseSign_app {v : List Nat} (w : List Nat) (hv : (10 : Nat) ∉ v) :
    parseSign (v ++ 10 :: w) = ((parseSign v).1, (parseSign v).2 ++ 10 :: w) := by
  cases v with
  | nil => simp [parseSign]
  | cons c t =>
    simp only [List.cons_append, parseSign]
    split <;> try rfl
    split <;> rfl

theorem parseDigits_app {v : List Nat} (ip : Int) (w : List Nat) (hv : (10 : Nat) ∉ v) :
    parseDigits ip (v ++ 10 :: w) = ((parseDigits ip v).1, (parseDigits ip v).2 ++ 10 :: w) := by
  induction v generalizing ip with
  | nil => simp [parseDigits, isDigit]
  | cons c t ih =>
    have hct : (10 : Nat) ∉ t := fun h => hv (List.mem_cons_of_mem _ h)
    simp only [List.cons_append, parseDigits]
    split
    · exact ih _ hct
    · rfl

theorem skipDot_app {v : List Nat} (w : List Nat) (hv : (10 : Nat) ∉ v) :
    skipDot (v ++ 10 :: w) = skipDot v ++ 10 :: w := by
  cases v with
  | nil => simp [skipDot]
  | cons c t =>
    simp only [List.cons_append, skipDot]
    split <;> rfl

theorem parseDec_app {v : List Nat} (w : List Nat) (hv : (10 : Nat) ∉ v) :
    parseDec (v ++ 10 :: w) = ((parseDec v).1, (parseDec v).2 ++ 10 :: w) := by
  cases v with
  | nil => simp [parseDec, isDigit]
  | cons c t =>
    simp only [List.cons_append, parseDec]
    split <;> rfl

theorem skipToNL_app {v : List Nat} (w : List Nat) (hv : (10 : Nat) ∉ v) :
    skipToNL (v ++ 10 :: w) = w := by
  induction v with
  | nil => simp [skipToNL]
  | cons c t ih =>
    have hc : c ≠ 10 := fun h => hv (h ▸ List.mem_cons_self c t)
    have hct : (10 : Nat) ∉ t := fun h => hv (List.mem_cons_of_mem _ h)
    simp only [List.cons_append, skipToNL, hc, if_neg hc]
    exact ih hct

theorem skipToNL_no_nl {v : List Nat} (hv : (10 : Nat) ∉ v) : skipToNL v = [] := by
  induction v with
  | nil => rfl
  | cons c t ih =>
    have hc : c ≠ 10 := fun h => hv (h ▸ List.mem_cons_self c t)
    have hct : (10 : Nat) ∉ t := fun h => hv (List.mem_cons_of_mem _ h)
    simp only [skipToNL, if_neg hc]
    exact ih hct

theorem parseValRest_split {v : List Nat} (w : List Nat) (hv : (10 : Nat) ∉ v) :
    parseValRest (v ++ 10 :: w) = ((parseValRest v).1, w) := by
  have h2 : (10 : Nat) ∉ (parseSign v).2 := fun h => hv (parseSign_mem h)
  have h3 : (10 : Nat) ∉ (parseDigits 0 (parseSign v).2).2 := fun h => h2 (parseDigits_mem h)
  have h4 : (10 : Nat) ∉ skipDot (parseDigits 0 (parseSign v).2).2 := fun h => h3 (skipDot_mem h)
  have h5 : (10 : Nat) ∉ (parseDec (skipDot (parseDigits 0 (parseSign v).2).2)).2 :=
    fun h => h4 (parseDec_mem h)
  simp only [parseValRest, parseSign_app w hv, parseDigits_app 0 w h2, skipDot_app w h3,
    parseDec_app w h4, skipToNL_app w h5]

theorem parseValRest_no_nl {r : List Nat} (hr : (10 : Nat) ∉ r) :
    (parseValRest r).2 = [] := by
  have h2 : (10 : Nat) ∉ (parseSign r).2 := fun h => hr (parseSign_mem h)
  have h3 : (10 : Nat) ∉ (parseDigits 0 (parseSign r).2).2 := fun h => h2 (parseDigits_mem h)
  have h4 : (10 : Nat) ∉ skipDot (parseDigits 0 (parseSign r).2).2 := fun h => h3 (skipDot_mem h)
  have h5 : (10 : Nat) ∉ (parseDec (skipDot (parseDigits 0 (parseSign r).2).2)).2 :=
    fun h => h4 (parseDec_mem h)
  simp only [parseValRest]
  exact skipToNL_no_nl h5

/-!
## Scanning distributes over a newline split
-/

theorem findKey_none_iff {acc buf : List Nat} :
    findKey acc buf = none ↔ (59 : Nat) ∉ buf := by
  induction buf generalizing acc with
  | nil => simp [findKey]
  | cons b t ih =>
    by_cases h59 : b = 59
    · simp [findKey, h59]
    · by_cases h10 : b = 10
      · simp [findKey, h59, h10, ih, Ne.symm h59]
      · simp [findKey, h59, h10, ih, Ne.symm h59]

theorem findKey_app_of_none {acc a : List Nat} (b : List Nat)
    (h : findKey acc a = none) : findKey acc (a ++ 10 :: b) = findKey [] b := by
  induction a generalizing acc with
  | nil => simp [findKey]
  | cons c t ih =>
    by_cases h59 : c = 59
    · simp [findKey, h59] at h
    · by_cases h10 : c = 10
      · simp only [findKey, h59, h10, if_neg, if_pos, List.cons_append] at h ⊢
        simp only [if_neg (by norm_num : (10 : Nat) ≠ 59), if_pos rfl] at h ⊢
        exact ih h
      · simp only [findKey, List.cons_append, if_neg h59, if_neg h10] at h ⊢
        exact ih h

theorem findKey_app_of_some {acc a k r : List Nat} (x : List Nat)
    (h : findKey acc a = some (k, r)) : findKey acc (a ++ x) = some (k, r ++ x) := by
  induction a generalizing acc with
  | nil => simp [findKey] at h
  | cons c t ih =>
    by_cases h59 : c = 59
    · simp only [findKey, List.cons_append, if_pos h59] at h ⊢
      obtain ⟨h1, h2⟩ := Prod.mk.injEq .. ▸ Option.some.injEq .. ▸ h
      simp_all
    · by_cases h10 : c = 10
      · simp only [findKey, List.cons_append, if_neg h59, if_pos h10] at h ⊢
        exact ih h
      · simp only [findKey, List.cons_append, if_neg h59, if_neg h10] at h ⊢
        exact ih h

/-- Decompose a list at its first newline byte. -/
theorem first_nl_decomp {r : List Nat} (h : (10 : Nat) ∈ r) :
    ∃ v rest, r = v ++ 10 :: rest ∧ (10 : Nat) ∉ v := by
  induction r with
  | nil => simp at h
  | cons c t ih =>
    by_cases hc : c = 10
    · exact ⟨[], t, by simp [hc], by simp⟩
    · have ht : (10 : Nat) ∈ t := by
        rcases List.mem_cons.mp h with h1 | h1
        · exact absurd h1.symm hc
        · exact h1
      obtain ⟨v, rest, hv, hnv⟩ := ih ht
      refine ⟨c :: v, rest, by simp [hv], ?_⟩
      intro hmem
      rcases List.mem_cons.mp hmem with h1 | h1
      · exact hc h1.symm
      · exact hnv h1

theorem scanChunk_append_aux : ∀ (n : Nat) (a : List Nat), a.length ≤ n →
    ∀ b : List Nat, scanChunk (a ++ 10 :: b) = scanChunk a ++ scanChunk b := by
  intro n
  induction n with
  | zero =>
    intro a ha b
    have : a = [] := List.length_eq_zero.mp (Nat.le_zero.mp ha)
    subst this
    have h0 : findKey [] ([] : List Nat) = none := rfl
    rw [scanChunk_eq_none h0]
    cases hk : findKey [] b with
    | none =>
      rw [scanChunk_eq_none hk, scanChunk_eq_none (by simpa [findKey] using hk)]
      rfl
    | some p =>
      obtain ⟨k, r⟩ := p
      have hk2 : findKey [] ([] ++ 10 :: b) = some (k, r) := by
        simpa [findKey] using hk
      rw [scanChunk_eq_some hk, scanChunk_eq_some hk2]
      rfl
  | succ n ih =>
    intro a ha b
    cases hk : findKey [] a with
    | none =>
      rw [scanChunk_eq_none hk]
      have hk2 : findKey [] (a ++ 10 :: b) = findKey [] b := findKey_app_of_none b hk
      cases hb : findKey [] b with
      | none => rw [scanChunk_eq_none (hk2.trans hb), scanChunk_eq_none hb]; rfl
      | some p =>
        obtain ⟨k, r⟩ := p
        rw [scanChunk_eq_some (hk2.trans hb), scanChunk_eq_some hb]
        rfl
    | some p =>
      obtain ⟨k, r⟩ := p
      have hk2 : findKey [] (a ++ 10 :: b) = some (k, r ++ 10 :: b) :=
        findKey_app_of_some _ hk
      have hrlen : r.length < a.length := findKey_length hk
      by_cases hnl : (10 : Nat) ∈ r
      · obtain ⟨v, rest, hveq, hnv⟩ := first_nl_decomp hnl
        subst hveq
        have hsplit1 : parseValRest ((v ++ 10 :: rest) ++ 10 :: b) = ((parseValRest v).1, rest ++ 10 :: b) := by
          rw [List.append_assoc, List.cons_append]
          exact parseValRest_split _ hnv
        have hsplit2 : parseValRest (v ++ 10 :: rest) = ((parseValRest v).1, rest) :=
          parseValRest_split _ hnv
        have hrest : rest.length ≤ n := by
          have h1 : rest.length < (v ++ 10 :: rest).length := by
            simp only [List.length_append, List.length_cons]
            omega
          omega
        rw [scanChunk_eq_some hk2, scanChunk_eq_some hk, hsplit1, hsplit2]
        simp [ih rest hrest b]
      · have hsplit1 : parseValRest (r ++ 10 :: b) = ((parseValRest r).1, b) :=
          parseValRest_split _ hnl
        have h3 : scanChunk ((parseValRest r).2) = [] := by
          rw [parseValRest_no_nl hnl]
          rfl
        rw [scanChunk_eq_some hk2, scanChunk_eq_some hk, hsplit1]
        simp [h3]

/-- Scanning a buffer split at a newline equals scanning the two halves
independently: the byte after the newline starts a fresh line, and the last
line of the first half is parsed with end-of-buffer as terminator. -/
theorem scanChunk_append (a b : List Nat) :
    scanChunk (a ++ 10 :: b) = scanChunk a ++ scanChunk b :=
  scanChunk_append_aux a.length a le_rfl b

theorem splitNL_no_nl {l : List Nat} (h : (10 : Nat) ∉ l) : splitNL l = [l] := by
  induction l with
  | nil => rfl
  | cons b t ih =>
    have hb : b ≠ 10 := fun hb => h (hb ▸ List.mem_cons_self b t)
    have ht : (10 : Nat) ∉ t := fun hm => h (List.mem_cons_of_mem _ hm)
    simp only [splitNL, if_neg hb, ih ht]

theorem splitNL_append {l : List Nat} (rest : List Nat) (h : (10 : Nat) ∉ l) :
    splitNL (l ++ 10 :: rest) = l :: splitNL rest := by
  induction l with
  | nil => simp [splitNL]
  | cons b t ih =>
    have hb : b ≠ 10 := fun hb => h (hb ▸ List.mem_cons_self b t)
    have ht : (10 : Nat) ∉ t := fun hm => h (List.mem_cons_of_mem _ hm)
    simp only [List.cons_append, splitNL, if_neg hb, List.append_eq, ih ht]

theorem lineSemi_none_iff {l : List Nat} : lineSemi l = none ↔ (59 : Nat) ∉ l := by
  induction l with
  | nil => simp [lineSemi]
  | cons b t ih =>
    by_cases hb : b = 59
    · simp [lineSemi, hb]
    · simp [lineSemi, hb, ih, Ne.symm hb]

theorem lineSemi_val_mem {l k v : List Nat} (h : lineSemi l = some (k, v)) :
    ∀ a ∈ v, a ∈ l := by
  induction l generalizing k with
  | nil => simp [lineSemi] at h
  | cons b t ih =>
    by_cases hb : b = 59
    · simp only [lineSemi, if_pos hb] at h
      obtain ⟨h1, h2⟩ := Prod.mk.injEq .. ▸ Option.some.injEq .. ▸ h
      intro a ha
      exact List.mem_cons_of_mem _ (h2 ▸ ha)
    · simp only [lineSemi, if_neg hb] at h
      cases ht : lineSemi t with
      | none => simp [ht] at h
      | some p =>
        obtain ⟨k', v'⟩ := p
        rw [ht] at h
        simp only [Option.map_some', Option.some.injEq, Prod.mk.injEq] at h
        obtain ⟨h1, h2⟩ := h
        intro a ha
        exact List.mem_cons_of_mem _ (ih (show lineSemi t = some (k', v) by rw [ht, h2]) a ha)

theorem findKey_no_nl {buf : List Nat} (acc : List Nat) (h : (10 : Nat) ∉ buf) :
    findKey acc buf = (lineSemi buf).map (fun p => (acc.reverse ++ p.1, p.2)) := by
  induction buf generalizing acc with
  | nil => simp [findKey, lineSemi]
  | cons b t ih =>
    have hb : b ≠ 10 := fun hb => h (hb ▸ List.mem_cons_self b t)
    have ht : (10 : Nat) ∉ t := fun hm => h (List.mem_cons_of_mem _ hm)
    by_cases h59 : b = 59
    · simp [findKey, lineSemi, h59]
    · simp only [findKey, if_neg h59, if_neg hb, lineSemi, ih _ ht]
      cases lineSemi t with
      | none => rfl
      | some p => simp

theorem scanChunk_single {l : List Nat} (h : (10 : Nat) ∉ l) :
    scanChunk l = (contribLine l).toList := by
  cases hls : lineSemi l with
  | none =>
    have hk : findKey [] l = none := by simp [findKey_no_nl [] h, hls]
    simp [scanChunk_eq_none hk, contribLine, hls]
  | some p =>
    obtain ⟨k, v⟩ := p
    have hk : findKey [] l = some (k, v) := by simp [findKey_no_nl [] h, hls]
    have hv : (10 : Nat) ∉ v := fun hm => h (lineSemi_val_mem hls _ hm)
    have hrest : scanChunk ((parseValRest v).2) = [] := by
      rw [parseValRest_no_nl hv]
      rfl
    rw [scanChunk_eq_some hk, hrest]
    simp [contribLine, hls, parseVal]

theorem scanChunk_lines_aux : ∀ (n : Nat) (buf : List Nat), buf.length ≤ n →
    scanChunk buf = (splitNL buf).filterMap contribLine := by
  intro n
  induction n with
  | zero =>
    intro buf h
    have : buf = [] := List.length_eq_zero.mp (Nat.le_zero.mp h)
    subst this
    rfl
  | succ n ih =>
    intro buf h
    by_cases hnl : (10 : Nat) ∈ buf
    · obtain ⟨l, rest, heq, hno⟩ := first_nl_decomp hnl
      subst heq
      have hrest : rest.length ≤ n := by
        have : (l ++ 10 :: rest).length = l.length + rest.length + 1 := by
          simp only [List.length_append, List.length_cons]
          omega
        omega
      rw [scanChunk_append, splitNL_append rest hno, List.filterMap_cons,
        scanChunk_single hno, ih rest hrest]
      cases contribLine l <;> simp
    · rw [splitNL_no_nl hnl, scanChunk_single hnl]
      cases hc : contribLine buf <;> simp [List.filterMap_cons, hc]

/-- The scanner's observation sequence is exactly the per-line contribution
of each line of the buffer, in order: lines without a delimiter are skipped,
every line with a delimiter contributes its key and leniently parsed value. -/
theorem scanChunk_lines (buf : List Nat) :
    scanChunk buf = (splitNL buf).filterMap contribLine :=
  scanChunk_lines_aux buf.length buf le_rfl

theorem contribLine_isSome (l : List Nat) :
    (contribLine l).isSome = decide ((59 : Nat) ∈ l) := by
  by_cases h : (59 : Nat) ∈ l
  · have : lineSemi l ≠ none := fun hn => (lineSemi_none_iff.mp hn) h
    cases hls : lineSemi l with
    | none => exact absurd hls this
    | some p => simp [contribLine, hls, h]
  · have : lineSemi l = none := lineSemi_none_iff.mpr h
    simp [contribLine, this, h]

theorem scanChunk_length (buf : List Nat) :
    (scanChunk buf).length = linesWithSemi buf := by
  rw [scanChunk_lines, linesWithSemi]
  induction splitNL buf with
  | nil => rfl
  | cons l ls ih =>
    rw [List.filterMap_cons, List.filter_cons]
    cases hc : contribLine l with
    | none =>
      have : decide ((59 : Nat) ∈ l) = false := by
        rw [← contribLine_isSome, hc]
        rfl
      simp [this, ih]
    | some p =>
      have : decide ((59 : Nat) ∈ l) = true := by
        rw [← contribLine_isSome, hc]
        rfl
      simp [this, ih]

theorem updStat_eq_mergeStat (s : Stat) (v : Int) :
    updStat s v = mergeStat s ⟨v, v, v, 1⟩ := rfl

theorem mergeStat_assoc (a b c : Stat) :
    mergeStat (mergeStat a b) c = mergeStat a (mergeStat b c) := by
  simp [mergeStat, min_assoc, max_assoc, add_assoc]

theorem mergeStat_comm (a b : Stat) : mergeStat a b = mergeStat b a := by
  simp [mergeStat, min_comm, max_comm, add_comm]

theorem combineOpt_none_right (o : Option Stat) : combineOpt o none = o := by
  cases o <;> rfl

theorem combineOpt_assoc (a b c : Option Stat) :
    combineOpt (combineOpt a b) c = combineOpt a (combineOpt b c) := by
  cases a <;> cases b <;> cases c <;> simp [combineOpt, mergeStat_assoc]

theorem combineOpt_comm (a b : Option Stat) : combineOpt a b = combineOpt b a := by
  cases a <;> cases b <;> simp [combineOpt, mergeStat_comm]

theorem lookupA_updateA (m : AMap) (k : List Nat) (v : Int) (q : List Nat) :
    lookupA (updateA m k v) q =
      if q = k then some (bump (lookupA m k) v) else lookupA m q := by
  induction m with
  | nil =>
    by_cases hq : q = k <;> simp [updateA, lookupA, bump, hq]
  | cons e t ih =>
    obtain ⟨k0, s⟩ := e
    by_cases hk : k = k0
    · subst hk
      by_cases hq : q = k <;> simp [updateA, lookupA, bump, hq]
    · have hupd : updateA ((k0, s) :: t) k v = (k0, s) :: updateA t k v := by
        simp [updateA, hk]
      by_cases hq : q = k0
      · have hqk : ¬q = k := fun h => hk (h.symm.trans hq)
        have hk0 : ¬k0 = k := fun h => hk h.symm
        simp [hupd, lookupA, hq, hqk, hk, hk0]
      · have hmk : lookupA ((k0, s) :: t) k = lookupA t k := by
          simp [lookupA, hk]
        have hmq : lookupA ((k0, s) :: t) q = lookupA t q := by
          simp [lookupA, hq]
        rw [hupd]
        show (if q = k0 then some s else lookupA (updateA t k v) q) = _
        rw [if_neg hq, ih, hmk, hmq]

theorem lookupA_aggregate_aux :
    ∀ (cs : List (List Nat × Int)) (m : AMap) (k : List Nat),
      lookupA (cs.foldl (fun m kv => updateA m kv.1 kv.2) m) k =
        cs.foldl (fun o kv => if kv.1 = k then some (bump o kv.2) else o) (lookupA m k) := by
  intro cs
  induction cs with
  | nil => intro m k; rfl
  | cons kv t ih =>
    intro m k
    obtain ⟨k1, v⟩ := kv
    simp only [List.foldl_cons]
    rw [ih]
    by_cases hk : k1 = k
    · subst hk
      simp [lookupA_updateA]
    · rw [lookupA_updateA, if_neg (fun h : k = k1 => hk h.symm)]
      simp [if_neg hk]

theorem lookupA_aggregate (cs : List (List Nat × Int)) (k : List Nat) :
    lookupA (aggregate cs) k = accOf cs k :=
  lookupA_aggregate_aux cs [] k

theorem lookupA_mergeKey (g : AMap) (k : List Nat) (st : Stat) (q : List Nat) :
    lookupA (mergeKey g (k, st)) q =
      if q = k then some (combineEntry (lookupA g k) st) else lookupA g q := by
  induction g with
  | nil =>
    by_cases hq : q = k <;> simp [mergeKey, lookupA, combineEntry, hq]
  | cons e t ih =>
    obtain ⟨k0, s⟩ := e
    by_cases hk : k = k0
    · subst hk
      by_cases hq : q = k <;> simp [mergeKey, lookupA, combineEntry, hq]
    · have hmrg : mergeKey ((k0, s) :: t) (k, st) = (k0, s) :: mergeKey t (k, st) := by
        simp [mergeKey, hk]
      by_cases hq : q = k0
      · have hqk : ¬q = k := fun h => hk (h.symm.trans hq)
        have hk0 : ¬k0 = k := fun h => hk h.symm
        simp [hmrg, lookupA, hq, hqk, hk, hk0]
      · have hmk : lookupA ((k0, s) :: t) k = lookupA t k := by
          simp [lookupA, hk]
        have hmq : lookupA ((k0, s) :: t) q = lookupA t q := by
          simp [lookupA, hq]
        rw [hmrg]
        show (if q = k0 then some s else lookupA (mergeKey t (k, st)) q) = _
        rw [if_neg hq, ih, hmk, hmq]

theorem keysOf_updateA (m : AMap) (k : List Nat) (v : Int) :
    keysOf (updateA m k v) = if k ∈ keysOf m then keysOf m else keysOf m ++ [k] := by
  induction m with
  | nil => simp [updateA, keysOf]
  | cons e t ih =>
    obtain ⟨k0, s⟩ := e
    by_cases hk : k = k0
    · subst hk
      simp [updateA, keysOf]
    · have hupd : updateA ((k0, s) :: t) k v = (k0, s) :: updateA t k v := by
        simp [updateA, hk]
      have hkeys : keysOf ((k0, s) :: t) = k0 :: keysOf t := rfl
      have hmemc : (k ∈ keysOf ((k0, s) :: t)) ↔ (k ∈ keysOf t) := by
        rw [hkeys]
        exact ⟨fun h => (List.mem_cons.mp h).resolve_left hk, List.mem_cons_of_mem _⟩
      by_cases hmem : k ∈ keysOf t
      · rw [hupd, if_pos (hmemc.mpr hmem)]
        show k0 :: keysOf (updateA t k v) = _
        rw [ih, if_pos hmem, hkeys]
      · rw [hupd, if_neg (fun h => hmem (hmemc.mp h))]
        show k0 :: keysOf (updateA t k v) = _
        rw [ih, if_neg hmem, hkeys]
        rfl

theorem nodup_keys_updateA {m : AMap} (h : (keysOf m).Nodup) (k : List Nat) (v : Int) :
    (keysOf (updateA m k v)).Nodup := by
  rw [keysOf_updateA]
  by_cases hmem : k ∈ keysOf m
  · simpa [hmem]
  · simp only [hmem, if_false]
    simpa [List.nodup_append] using ⟨h, hmem⟩

theorem nodup_keys_aggregate_aux :
    ∀ (cs : List (List Nat × Int)) (m : AMap), (keysOf m).Nodup →
      (keysOf (cs.foldl (fun m kv => updateA m kv.1 kv.2) m)).Nodup := by
  intro cs
  induction cs with
  | nil => intro m h; exact h
  | cons kv t ih =>
    intro m h
    exact ih _ (nodup_keys_updateA h kv.1 kv.2)

theorem nodup_keys_aggregate (cs : List (List Nat × Int)) :
    (keysOf (aggregate cs)).Nodup :=
  nodup_keys_aggregate_aux cs [] (by simp [keysOf])

theorem lookupA_none_of_not_mem {m : AMap} {k : List Nat} (h : k ∉ keysOf m) :
    lookupA m k = none := by
  induction m with
  | nil => rfl
  | cons e t ih =>
    obtain ⟨k0, s⟩ := e
    have hk : ¬k = k0 := fun he => h (by simp [keysOf, he])
    have ht : k ∉ keysOf t := fun hm => h (by simp [keysOf]; right; simpa [keysOf] using hm)
    simp [lookupA, hk, ih ht]

theorem lookupA_mergeInto :
    ∀ (m : AMap) (g : AMap) (k : List Nat), (keysOf m).Nodup →
      lookupA (mergeInto g m) k = combineOpt (lookupA g k) (lookupA m k) := by
  intro m
  induction m with
  | nil =>
    intro g k _
    simp [mergeInto, lookupA, combineOpt_none_right]
  | cons e t ih =>
    intro g k hnd
    obtain ⟨k1, st⟩ := e
    have hnp : k1 ∉ keysOf t ∧ (keysOf t).Nodup := by
      have h2 : (k1 :: keysOf t).Nodup := hnd
      exact List.nodup_cons.mp h2
    show lookupA (mergeInto (mergeKey g (k1, st)) t) k = _
    rw [ih _ k hnp.2, lookupA_mergeKey]
    by_cases hk : k = k1
    · subst hk
      have htn : lookupA t k = none := lookupA_none_of_not_mem hnp.1
      have hcons : lookupA ((k, st) :: t) k = some st := by simp [lookupA]
      rw [htn, if_pos rfl, combineOpt_none_right, hcons]
      cases hg : lookupA g k <;> simp [combineOpt, combineEntry]
    · have hcons : lookupA ((k1, st) :: t) k = lookupA t k := by simp [lookupA, hk]
      rw [if_neg hk, hcons]

theorem accOf_step (o : Option Stat) (e : List Nat × Int) (X : Option Stat) (k : List Nat) :
    combineOpt (if e.1 = k then some (bump o e.2) else o) X =
      combineOpt o (combineOpt (if e.1 = k then some (bump none e.2) else none) X) := by
  by_cases he : e.1 = k
  · rw [if_pos he, if_pos he]
    cases o with
    | none => rfl
    | some a =>
      cases X with
      | none => simp [bump, combineOpt, updStat_eq_mergeStat]
      | some x => simp [bump, combineOpt, updStat_eq_mergeStat, mergeStat_assoc]
  · rw [if_neg he, if_neg he]
    rfl

theorem accOf_foldl (ys : List (List Nat × Int)) (k : List Nat) :
    ∀ o : Option Stat,
      ys.foldl (fun o kv => if kv.1 = k then some (bump o kv.2) else o) o =
        combineOpt o (accOf ys k) := by
  induction ys with
  | nil => intro o; rw [accOf]; simp [combineOpt_none_right]
  | cons e t ih =>
    intro o
    show t.foldl _ (if e.1 = k then some (bump o e.2) else o) = _
    rw [ih]
    have haux : accOf (e :: t) k =
        combineOpt (if e.1 = k then some (bump none e.2) else none) (accOf t k) := by
      show t.foldl _ (if e.1 = k then some (bump none e.2) else none) = _
      rw [ih]
    rw [haux]
    exact accOf_step o e (accOf t k) k

theorem accOf_append (xs ys : List (List Nat × Int)) (k : List Nat) :
    accOf (xs ++ ys) k = combineOpt (accOf xs k) (accOf ys k) := by
  show (xs ++ ys).foldl _ none = _
  rw [List.foldl_append, accOf_foldl]
  rfl

theorem lookupA_mergeAll_aux :
    ∀ (ls : List AMap) (g : AMap) (k : List Nat), (∀ m ∈ ls, (keysOf m).Nodup) →
      lookupA (ls.foldl mergeInto g) k =
        ls.foldl (fun o m => combineOpt o (lookupA m k)) (lookupA g k) := by
  intro ls
  induction ls with
  | nil => intro g k _; rfl
  | cons m t ih =>
    intro g k hnd
    show lookupA (t.foldl mergeInto (mergeInto g m)) k = _
    rw [ih _ k (fun m hm => hnd m (List.mem_cons_of_mem _ hm)),
      lookupA_mergeInto m g k (hnd m (List.mem_cons_self m t)), List.foldl_cons]

theorem combineOpt_foldl {α : Type} (f : α → Option Stat) (ts : List α) :
    ∀ o : Option Stat,
      ts.foldl (fun o c => combineOpt o (f c)) o =
        combineOpt o (ts.foldl (fun o c => combineOpt o (f c)) none) := by
  induction ts with
  | nil => intro o; rw [List.foldl_nil, List.foldl_nil, combineOpt_none_right]
  | cons c t ih =>
    intro o
    rw [List.foldl_cons, List.foldl_cons, ih, ih (combineOpt none (f c)), ← combineOpt_assoc]
    rfl

theorem accOf_flatten (css : List (List (List Nat × Int))) (k : List Nat) :
    accOf css.flatten k =
      css.foldl (fun o cs => combineOpt o (accOf cs k)) none := by
  induction css with
  | nil => rfl
  | cons cs t ih =>
    rw [List.flatten_cons, accOf_append, ih, List.foldl_cons,
      combineOpt_foldl (fun c => accOf c k) t (combineOpt none (accOf cs k))]
    rfl

/-- Pointwise value of the merged global map: the accumulator obtained from
the concatenation of all chunks' observation sequences. -/
theorem lookupA_globalMap (data : List Nat) (workers : Nat) (k : List Nat) :
    lookupA (globalMap data workers) k =
      accOf (((parts data workers).map scanChunk).flatten) k := by
  have hnd : ∀ m ∈ (parts data workers).map parseChunkIDs, (keysOf m).Nodup := by
    intro m hm
    rw [List.mem_map] at hm
    obtain ⟨c, _, hc⟩ := hm
    rw [← hc]
    exact nodup_keys_aggregate _
  rw [globalMap, mergeAll, lookupA_mergeAll_aux _ _ _ hnd]
  have h0 : lookupA ([] : AMap) k = none := rfl
  rw [h0, List.foldl_map, accOf_flatten, List.foldl_map]
  simp only [parseChunkIDs, lookupA_aggregate]

theorem lookupA_seqMap (data : List Nat) (k : List Nat) :
    lookupA (seqMap data) k = accOf (scanChunk data) k :=
  lookupA_aggregate _ _

/-!
## Total count bookkeeping
-/

theorem totalCount_mergeKey (g : AMap) (k : List Nat) (st : Stat) :
    totalCount (mergeKey g (k, st)) = totalCount g + st.count := by
  induction g with
  | nil => simp [mergeKey, totalCount]
  | cons e t ih =>
    obtain ⟨k0, s⟩ := e
    by_cases hk : k = k0
    · simp [mergeKey, hk, totalCount, mergeStat]
      ring
    · simp [mergeKey, hk, totalCount] at ih ⊢
      rw [ih]
      ring

theorem totalCount_mergeInto (m : AMap) :
    ∀ g : AMap, totalCount (mergeInto g m) = totalCount g + totalCount m := by
  induction m with
  | nil => intro g; simp [mergeInto, totalCount]
  | cons e t ih =>
    intro g
    obtain ⟨k1, st⟩ := e
    show totalCount (t.foldl mergeKey (mergeKey g (k1, st))) = _
    rw [show ∀ g' : AMap, t.foldl mergeKey g' = mergeInto g' t from fun g' => rfl,
      ih, totalCount_mergeKey]
    simp [totalCount]
    ring

theorem totalCount_updateA (m : AMap) (k : List Nat) (v : Int) :
    totalCount (updateA m k v) = totalCount m + 1 := by
  induction m with
  | nil => simp [updateA, totalCount]
  | cons e t ih =>
    obtain ⟨k0, s⟩ := e
    by_cases hk : k = k0
    · simp [updateA, hk, totalCount, updStat]
      ring
    · simp [updateA, hk, totalCount] at ih ⊢
      rw [ih]
      ring

theorem totalCount_aggregate_aux :
    ∀ (cs : List (List Nat × Int)) (m : AMap),
      totalCount (cs.foldl (fun m kv => updateA m kv.1 kv.2) m) =
        totalCount m + cs.length := by
  intro cs
  induction cs with
  | nil => intro m; simp
  | cons kv t ih =>
    intro m
    rw [List.foldl_cons, ih, totalCount_updateA]
    simp [List.length_cons]
    ring

/-- Each observation contributes exactly one to exactly one key's count. -/
theorem totalCount_aggregate (cs : List (List Nat × Int)) :
    totalCount (aggregate cs) = cs.length := by
  rw [aggregate, totalCount_aggregate_aux]
  simp [totalCount]

theorem totalCount_mergeAll (ls : List AMap) :
    totalCount (mergeAll ls) = (ls.map totalCount).sum := by
  rw [mergeAll]
  have haux : ∀ (ls : List AMap) (g : AMap),
      totalCount (ls.foldl mergeInto g) = totalCount g + (ls.map totalCount).sum := by
    intro ls
    induction ls with
    | nil => intro g; simp
    | cons m t ih =>
      intro g
      rw [List.foldl_cons, ih, totalCount_mergeInto]
      simp
      ring
  rw [haux]
  simp [totalCount]

/-- The global map's total count is the total number of observations over
all partitions. -/
theorem totalCount_globalMap (data : List Nat) (workers : Nat) :
    totalCount (globalMap data workers) =
      ((((parts data workers).map scanChunk).flatten).length : Int) := by
  rw [globalMap, totalCount_mergeAll, List.map_map, List.length_flatten, List.map_map]
  simp only [Function.comp_def, parseChunkIDs, totalCount_aggregate]
  induction parts data workers with
  | nil => simp
  | cons c t ih => simp [ih]

/-!
## Partition boundary analysis
-/

theorem findNLF_ge : ∀ (fuel : Nat) (data : List Nat) (s e : Nat),
    s ≤ findNLF fuel data s e := by
  intro fuel
  induction fuel with
  | zero => intro data s e; exact le_rfl
  | succ fuel ih =>
    intro data s e
    simp only [findNLF]
    split
    · split
      · exact le_rfl
      · exact le_trans (Nat.le_succ s) (ih data (s + 1) e)
    · exact le_rfl

theorem findNLF_le : ∀ (fuel : Nat) (data : List Nat) (s e : Nat), s ≤ e →
    findNLF fuel data s e ≤ e := by
  intro fuel
  induction fuel with
  | zero => intro data s e h; exact h
  | succ fuel ih =>
    intro data s e h
    simp only [findNLF]
    split
    · split
      · exact h
      · exact ih data (s + 1) e (by omega)
    · exact h

theorem findNL_ge (data : List Nat) (s e : Nat) : s ≤ findNL data s e :=
  findNLF_ge _ data s e

theorem findNL_le (data : List Nat) {s e : Nat} (h : s ≤ e) : findNL data s e ≤ e :=
  findNLF_le _ data s e h

theorem findNL_eq (data : List Nat) (s e : Nat) :
    findNL data s e =
      if s < e then (if data.getD s 0 = 10 then s else findNL data (s + 1) e) else s := by
  by_cases h : s < e
  · have h1 : e - s = (e - (s + 1)) + 1 := by omega
    rw [findNL, h1]
    show (if s < e then _ else s) = _
    rw [if_pos h, if_pos h]
    rfl
  · have h1 : e - s = 0 := by omega
    rw [findNL, h1]
    show s = _
    rw [if_neg h]

theorem findNL_nl : ∀ (n : Nat) (data : List Nat) (s e : Nat), e - s ≤ n →
    findNL data s e < e → data.getD (findNL data s e) 0 = 10 := by
  intro n
  induction n with
  | zero =>
    intro data s e h hlt
    have hs : ¬s < e := by omega
    rw [findNL_eq, if_neg hs] at hlt
    omega
  | succ n ih =>
    intro data s e h hlt
    by_cases hs : s < e
    · by_cases hnl : data.getD s 0 = 10
      · rw [findNL_eq, if_pos hs, if_pos hnl]
        exact hnl
      · rw [findNL_eq, if_pos hs, if_neg hnl] at hlt ⊢
        exact ih data (s + 1) e (by omega) hlt
    · rw [findNL_eq, if_neg hs] at hlt
      omega

theorem findNL_first : ∀ (n : Nat) (data : List Nat) (s e : Nat), e - s ≤ n →
    ∀ j, s ≤ j → j < findNL data s e → data.getD j 0 ≠ 10 := by
  intro n
  induction n with
  | zero =>
    intro data s e h j hj hjlt
    have hs : ¬s < e := by omega
    rw [findNL_eq, if_neg hs] at hjlt
    omega
  | succ n ih =>
    intro data s e h j hj hjlt
    by_cases hs : s < e
    · by_cases hnl : data.getD s 0 = 10
      · rw [findNL_eq, if_pos hs, if_pos hnl] at hjlt
        omega
      · rw [findNL_eq, if_pos hs, if_neg hnl] at hjlt
        by_cases hjs : j = s
        · rw [hjs]
          exact hnl
        · exact ih data (s + 1) e (by omega) j (by omega) hjlt
    · rw [findNL_eq, if_neg hs] at hjlt
      omega

theorem findNL_extend : ∀ (n : Nat) (data : List Nat) (s e e2 : Nat), e - s ≤ n →
    findNL data s e < e → e ≤ e2 → findNL data s e2 = findNL data s e := by
  intro n
  induction n with
  | zero =>
    intro data s e e2 h hlt _
    have hs : ¬s < e := by omega
    rw [findNL_eq, if_neg hs] at hlt
    omega
  | succ n ih =>
    intro data s e e2 h hlt hle
    have hs : s < e := lt_of_le_of_lt (findNL_ge data s e) hlt
    have hs2 : s < e2 := lt_of_lt_of_le hs hle
    by_cases hnl : data.getD s 0 = 10
    · rw [findNL_eq data s e, if_pos hs, if_pos hnl,
        findNL_eq data s e2, if_pos hs2, if_pos hnl]
    · rw [findNL_eq data s e, if_pos hs, if_neg hnl] at hlt ⊢
      rw [findNL_eq data s e2, if_pos hs2, if_neg hnl]
      exact ih data (s + 1) e e2 (by omega) hlt hle

theorem nlPos_facts {data : List Nat} {w : Nat} (hwin : windowsOk data w)
    {i : Nat} (h1 : 1 ≤ i) (h2 : i < w) :
    i * (data.length / w) ≤ nlPos data w i ∧
    nlPos data w i < (i + 1) * (data.length / w) ∧
    data.getD (nlPos data w i) 0 = 10 ∧
    nlPos data w i < data.length ∧
    nlPos data w i = findNL data (i * (data.length / w)) ((i + 1) * (data.length / w)) := by
  have hwc : w * (data.length / w) ≤ data.length := by
    rw [Nat.mul_comm]
    exact Nat.div_mul_le_self data.length w
  have hie : (i + 1) * (data.length / w) ≤ data.length :=
    le_trans (Nat.mul_le_mul_right _ (by omega)) hwc
  have hwi := hwin i (List.mem_range.mpr h2) h1
  have hext : nlPos data w i =
      findNL data (i * (data.length / w)) ((i + 1) * (data.length / w)) :=
    findNL_extend ((i + 1) * (data.length / w) - i * (data.length / w)) data _ _ _
      le_rfl hwi hie
  refine ⟨findNL_ge data _ _, ?_, ?_, ?_, hext⟩
  · rw [hext]; exact hwi
  · rw [hext]; exact findNL_nl _ data _ _ le_rfl hwi
  · rw [hext]; omega

theorem chunkRange_fst_zero (data : List Nat) (w : Nat) :
    (chunkRange data w 0).1 = 0 := by
  simp [chunkRange]

theorem chunkRange_fst_pos {data : List Nat} {w : Nat} (hwin : windowsOk data w)
    {i : Nat} (h1 : 1 ≤ i) (h2 : i < w) :
    (chunkRange data w i).1 = nlPos data w i + 1 := by
  obtain ⟨ha, hb, hnl, hd, he⟩ := nlPos_facts hwin h1 h2
  simp only [chunkRange, if_pos (by omega : 0 < i)]
  by_cases hlast : i = w - 1
  · rw [if_pos hlast]
    have hj : findNL data (i * (data.length / w)) data.length = nlPos data w i := rfl
    rw [hj, if_pos hd]
  · rw [if_neg hlast]
    have hc : i * (data.length / w) + data.length / w = (i + 1) * (data.length / w) := by
      ring
    rw [hc, ← he, if_pos (he ▸ hb)]

theorem chunkRange_snd_last (data : List Nat) (w : Nat) (hw : 0 < w) :
    (chunkRange data w (w - 1)).2 = data.length := by
  simp only [chunkRange, if_pos rfl]
  rw [if_neg (by omega : ¬(w - 1 < w - 1))]
  simp

theorem chunkRange_snd {data : List Nat} {w : Nat} (hwin : windowsOk data w)
    {i : Nat} (h2 : i < w - 1) :
    (chunkRange data w i).2 = nlPos data w (i + 1) := by
  simp only [chunkRange]
  rw [if_neg (by omega : ¬i = w - 1), if_pos h2]
  have hc : i * (data.length / w) + data.length / w = (i + 1) * (data.length / w) := by
    ring
  rw [hc]
  rfl

theorem glue_cons {c : List Nat} {l : List (List Nat)} (h : l ≠ []) :
    glue (c :: l) = c ++ 10 :: glue l := by
  cases l with
  | nil => exact absurd rfl h
  | cons c2 t => rfl

theorem scanChunk_glue (cs : List (List Nat)) :
    scanChunk (glue cs) = (cs.map scanChunk).flatten := by
  induction cs with
  | nil => rfl
  | cons c rest ih =>
    cases rest with
    | nil => simp [glue]
    | cons c2 rest2 =>
      rw [glue_cons (by simp), scanChunk_append, ih]
      simp

theorem drop_split_at_nl (data : List Nat) {s p : Nat} (hsp : s ≤ p)
    (hpn : p < data.length) (hnl : data.getD p 0 = 10) :
    (data.drop s).take (p - s) ++ 10 :: data.drop (p + 1) = data.drop s := by
  have h1 : data.drop p = 10 :: data.drop (p + 1) := by
    rw [List.drop_eq_getElem_cons hpn]
    congr 1
    rw [← hnl]
    exact (List.getD_eq_getElem data 0 hpn).symm
  calc (data.drop s).take (p - s) ++ 10 :: data.drop (p + 1)
      = (data.drop s).take (p - s) ++ data.drop p := by rw [h1]
    _ = (data.drop s).take (p - s) ++ (data.drop s).drop (p - s) := by
        rw [List.drop_drop, show s + (p - s) = p from by omega]
    _ = data.drop s := List.take_append_drop _ _

theorem glue_from {data : List Nat} {w : Nat} (hw : 0 < w) (hwin : windowsOk data w) :
    ∀ (k j : Nat), j + k + 1 = w →
      glue ((List.range' j (k + 1)).map (chunkBytes data w)) =
        data.drop (chunkRange data w j).1 := by
  intro k
  induction k with
  | zero =>
    intro j hj
    have hj1 : j = w - 1 := by omega
    show chunkBytes data w j = _
    rw [chunkBytes, hj1, chunkRange_snd_last data w hw]
    exact List.take_of_length_le (by simp)
  | succ k ih =>
    intro j hj
    have hjw : j < w - 1 := by omega
    have hr : List.range' j (k + 1 + 1) = j :: List.range' (j + 1) (k + 1) := rfl
    rw [hr, List.map_cons, glue_cons (by simp), ih (j + 1) (by omega)]
    obtain ⟨ha, hb, hnl, hd, _⟩ := nlPos_facts hwin (by omega : 1 ≤ j + 1) (by omega : j + 1 < w)
    rw [chunkRange_fst_pos hwin (by omega : 1 ≤ j + 1) (by omega : j + 1 < w),
      chunkBytes, chunkRange_snd hwin hjw]
    have hs : (chunkRange data w j).1 ≤ nlPos data w (j + 1) := by
      by_cases hj0 : j = 0
      · rw [hj0, chunkRange_fst_zero]
        exact Nat.zero_le _
      · rw [chunkRange_fst_pos hwin (by omega : 1 ≤ j) (by omega : j < w)]
        obtain ⟨_, hbj, _, _, _⟩ := nlPos_facts hwin (by omega : 1 ≤ j) (by omega : j < w)
        have : (j + 1) * (data.length / w) ≤ nlPos data w (j + 1) := ha
        omega
    exact drop_split_at_nl data hs hd hnl

/-- Under the window condition the partitions tile the input: concatenating
them with the single separating newline between consecutive partitions
reconstructs the input exactly. -/
theorem glue_parts {data : List Nat} {w : Nat} (hw : 0 < w) (hwin : windowsOk data w) :
    glue (parts data w) = data := by
  have h0 := glue_from hw hwin (w - 1) 0 (by omega)
  rw [chunkRange_fst_zero, List.drop_zero] at h0
  have hr : List.range' 0 w = List.range' 0 ((w - 1) + 1) := by
    congr 1
    omega
  rw [parts, List.range_eq_range', hr]
  exact h0

/-- Under the window condition the per-partition observation sequences
concatenate, in worker order, to the sequential observation sequence. -/
theorem scanChunk_parts {data : List Nat} {w : Nat} (hw : 0 < w) (hwin : windowsOk data w) :
    ((parts data w).map scanChunk).flatten = scanChunk data := by
  rw [← scanChunk_glue, glue_parts hw hwin]

theorem wrap32_small {x : Int} (h1 : -(2 ^ 31) ≤ x) (h2 : x < 2 ^ 31) : wrap32 x = x := by
  rw [wrap32, Int.emod_eq_of_lt (by omega) (by omega)]
  omega

theorem digitsFrom_ge (a : Nat) (ds : List Nat) : a ≤ digitsFrom a ds := by
  induction ds generalizing a with
  | nil => exact le_rfl
  | cons c t ih =>
    calc a ≤ a * 10 + (c - 48) := by omega
      _ ≤ digitsFrom (a * 10 + (c - 48)) t := ih _

theorem parseDigits_complete :
    ∀ (ds : List Nat) (a : Nat) (rest : List Nat),
      (∀ c ∈ ds, isDigit c = true) →
      (∀ c ∈ rest.head?, isDigit c = false) →
      digitsFrom a ds < 2 ^ 31 →
      parseDigits (a : Int) (ds ++ rest) = ((digitsFrom a ds : Int), rest) := by
  intro ds
  induction ds with
  | nil =>
    intro a rest _ hrest _
    cases rest with
    | nil => simp [parseDigits, digitsFrom]
    | cons c t =>
      have : isDigit c = false := hrest c rfl
      simp [parseDigits, this, digitsFrom]
  | cons c t ih =>
    intro a rest hds hrest hlt
    have hc : isDigit c = true := hds c (List.mem_cons_self c t)
    have h48 : 48 ≤ c := by
      simp [isDigit] at hc
      omega
    have hstep : digitsFrom a (c :: t) = digitsFrom (a * 10 + (c - 48)) t := rfl
    have hle : a * 10 + (c - 48) ≤ digitsFrom a (c :: t) := by
      rw [hstep]
      exact digitsFrom_ge _ t
    have hsm : ((a * 10 + (c - 48) : Nat) : Int) < 2 ^ 31 := by
      have := lt_of_le_of_lt hle hlt
      exact_mod_cast this
    have hcast : (a : Int) * 10 + ((c : Int) - 48) = ((a * 10 + (c - 48) : Nat) : Int) := by
      push_cast [h48]
      ring
    rw [List.cons_append]
    show parseDigits (a : Int) (c :: (t ++ rest)) = _
    rw [parseDigits]
    simp only [hc, if_true]
    rw [hcast, wrap32_small (by omega) hsm, ih (a * 10 + (c - 48)) rest
      (fun x hx => hds x (List.mem_cons_of_mem _ hx)) hrest (by rw [← hstep]; exact hlt),
      hstep]

theorem parseValRest_wellFormed (sb : List Nat) (sv : Int)
    (hs : (sb = [] ∧ sv = 1) ∨ (sb = [43] ∧ sv = 1) ∨ (sb = [45] ∧ sv = -1))
    (ds : List Nat) (hne : ds ≠ []) (hds : ∀ c ∈ ds, isDigit c = true)
    (fb : List Nat) (dv : Nat)
    (hf : (fb = [] ∧ dv = 0) ∨ (∃ d, isDigit d = true ∧ fb = [46, d] ∧ dv = d - 48))
    (hrange : digitsToNat ds * 10 + dv < 2 ^ 31) :
    parseValRest (sb ++ (ds ++ fb)) =
      (sv * ((digitsToNat ds * 10 + dv : Nat) : Int), []) := by
  have hsv : sv = 1 ∨ sv = -1 := by
    rcases hs with ⟨_, h2⟩ | ⟨_, h2⟩ | ⟨_, h2⟩
    · exact Or.inl h2
    · exact Or.inl h2
    · exact Or.inr h2
  have hsign : parseSign (sb ++ (ds ++ fb)) = (sv, ds ++ fb) := by
    rcases hs with ⟨h1, h2⟩ | ⟨h1, h2⟩ | ⟨h1, h2⟩ <;> subst h1 <;> subst h2
    · cases ds with
      | nil => exact absurd rfl hne
      | cons d t =>
        have hd : isDigit d = true := hds d (List.mem_cons_self d t)
        have h48 : 48 ≤ d := by
          simp [isDigit] at hd
          omega
        simp [parseSign, show ¬d = 45 from by omega, show ¬d = 43 from by omega]
    · simp [parseSign]
    · simp [parseSign]
  have hfhead : ∀ c ∈ fb.head?, isDigit c = false := by
    rcases hf with ⟨h1, _⟩ | ⟨d, hd, h1, _⟩ <;> subst h1
    · intro c hc
      simp at hc
    · intro c hc
      simp at hc
      subst hc
      rfl
  have hdig : parseDigits (0 : Int) (ds ++ fb) = ((digitsToNat ds : Int), fb) := by
    have h0 : digitsFrom 0 ds = digitsToNat ds := rfl
    have := parseDigits_complete ds 0 fb hds hfhead (by rw [h0]; omega)
    rw [h0] at this
    exact_mod_cast this
  have hdec : parseDec (skipDot fb) = ((dv : Int), []) := by
    rcases hf with ⟨h1, h2⟩ | ⟨d, hd, h1, h2⟩ <;> subst h1 <;> subst h2
    · simp [skipDot, parseDec]
    · have h48 : 48 ≤ d := by
        simp [isDigit] at hd
        omega
      simp [skipDot, parseDec, hd]
      push_cast [h48]
      ring
  have hNlt : ((digitsToNat ds : Int) * 10 + (dv : Int)) < 2 ^ 31 := by
    have : ((digitsToNat ds * 10 + dv : Nat) : Int) < ((2 ^ 31 : Nat) : Int) := by
      exact_mod_cast hrange
    push_cast at this ⊢
    omega
  have hN0 : (0 : Int) ≤ (digitsToNat ds : Int) * 10 + (dv : Int) := by
    have h1 : (0 : Int) ≤ (digitsToNat ds : Int) := Int.ofNat_nonneg _
    have h2 : (0 : Int) ≤ (dv : Int) := Int.ofNat_nonneg _
    omega
  have hw1 : wrap32 ((digitsToNat ds : Int) * 10) = (digitsToNat ds : Int) * 10 :=
    wrap32_small (by omega) (by omega)
  simp only [parseValRest, hsign, hdig, hdec, hw1]
  have hw2 : wrap32 ((digitsToNat ds : Int) * 10 + (dv : Int)) =
      (digitsToNat ds : Int) * 10 + (dv : Int) :=
    wrap32_small (by omega) hNlt
  rw [hw2]
  have hw3 : wrap32 (sv * ((digitsToNat ds : Int) * 10 + (dv : Int))) =
      sv * ((digitsToNat ds : Int) * 10 + (dv : Int)) := by
    rcases hsv with h | h <;> subst h
    · rw [one_mul]
      exact wrap32_small (by omega) hNlt
    · rw [neg_one_mul]
      exact wrap32_small (by omega) (by omega)
  rw [hw3]
  have hcast : ((digitsToNat ds * 10 + dv : Nat) : Int) =
      (digitsToNat ds : Int) * 10 + (dv : Int) := by
    push_cast
    ring
  rw [hcast]
  rfl

theorem equalSB_iff : ∀ {s b : List Nat}, equalSB s b = true ↔ s = b := by
  intro s
  induction s with
  | nil =>
    intro b
    cases b <;> simp [equalSB]
  | cons a t ih =>
    intro b
    cases b with
    | nil => simp [equalSB]
    | cons c u => simp [equalSB, ih]

theorem idxOf_lt_of_mem {ns : List (List Nat)} {b : List Nat} (h : b ∈ ns) :
    idxOf ns b < ns.length := by
  induction ns with
  | nil => simp at h
  | cons x t ih =>
    by_cases hx : x = b
    · simp [idxOf, hx]
    · have hb : b ∈ t := by
        rcases List.mem_cons.mp h with h1 | h1
        · exact absurd h1.symm hx
        · exact h1
      simp [idxOf, hx]
      exact ih hb

theorem idxOf_eq_length_of_not_mem {ns : List (List Nat)} {b : List Nat} (h : b ∉ ns) :
    idxOf ns b = ns.length := by
  induction ns with
  | nil => rfl
  | cons x t ih =>
    have hx : ¬x = b := fun he => h (he ▸ List.mem_cons_self x t)
    have ht : b ∉ t := fun hm => h (List.mem_cons_of_mem _ hm)
    simp [idxOf, hx, ih ht]

theorem getD_idxOf {ns : List (List Nat)} {b : List Nat} (h : b ∈ ns) :
    ns.getD (idxOf ns b) [] = b := by
  induction ns with
  | nil => simp at h
  | cons x t ih =>
    by_cases hx : x = b
    · simp [idxOf, hx]
    · have hb : b ∈ t := by
        rcases List.mem_cons.mp h with h1 | h1
        · exact absurd h1.symm hx
        · exact h1
      have hidx : idxOf (x :: t) b = idxOf t b + 1 := by simp [idxOf, hx]
      rw [hidx]
      show t.getD (idxOf t b) [] = b
      exact ih hb

theorem idxOf_append_left {ns ms : List (List Nat)} {b : List Nat} (h : b ∈ ns) :
    idxOf (ns ++ ms) b = idxOf ns b := by
  induction ns with
  | nil => simp at h
  | cons x t ih =>
    by_cases hx : x = b
    · simp [idxOf, hx]
    · have hb : b ∈ t := by
        rcases List.mem_cons.mp h with h1 | h1
        · exact absurd h1.symm hx
        · exact h1
      simp [idxOf, hx, ih hb]

theorem idxOf_append_self {ns : List (List Nat)} {b : List Nat} (h : b ∉ ns) :
    idxOf (ns ++ [b]) b = ns.length := by
  induction ns with
  | nil => simp [idxOf]
  | cons x t ih =>
    have hx : ¬x = b := fun he => h (he ▸ List.mem_cons_self x t)
    have ht : b ∉ t := fun hm => h (List.mem_cons_of_mem _ hm)
    simp [idxOf, hx, ih ht]

theorem getD_mem {ns : List (List Nat)} {j : Nat} (h : j < ns.length) :
    ns.getD j [] ∈ ns := by
  rw [List.getD_eq_getElem ns [] h]
  exact List.getElem_mem h

theorem idx_unique_of_nodup {ns : List (List Nat)} (hnd : ns.Nodup) :
    ∀ {id : Nat} {b : List Nat}, id < ns.length → ns.getD id [] = b → id = idxOf ns b := by
  induction ns with
  | nil =>
    intro id b h _
    simp at h
  | cons x t ih =>
    intro id b hlt hget
    cases id with
    | zero =>
      simp at hget
      simp [idxOf, hget]
    | succ i =>
      have hi : i < t.length := by
        simp at hlt
        omega
      have hget2 : t.getD i [] = b := hget
      have hbt : b ∈ t := hget2 ▸ getD_mem hi
      have hx : ¬x = b := by
        intro he
        exact (List.nodup_cons.mp hnd).1 (he ▸ hbt)
      simp [idxOf, hx]
      exact ih (List.nodup_cons.mp hnd).2 hi hget2

theorem bucketGet_put (bs : List (Nat × List Nat)) (h : Nat) (ids : List Nat) (q : Nat) :
    bucketGet (bucketPut bs h ids) q = if q = h then ids else bucketGet bs q := by
  induction bs with
  | nil =>
    by_cases hq : q = h <;> simp [bucketPut, bucketGet, hq]
  | cons e t ih =>
    obtain ⟨h0, ids0⟩ := e
    by_cases hh : h = h0
    · subst hh
      by_cases hq : q = h <;> simp [bucketPut, bucketGet, hq]
    · have hput : bucketPut ((h0, ids0) :: t) h ids = (h0, ids0) :: bucketPut t h ids := by
        simp [bucketPut, hh]
      by_cases hq : q = h0
      · have hqh : ¬q = h := fun he => hh (he.symm.trans hq)
        have hh0 : ¬h0 = h := fun he => hh he.symm
        simp [hput, bucketGet, hq, hqh, hh0]
      · have hbg : bucketGet ((h0, ids0) :: t) q = bucketGet t q := by
          simp [bucketGet, hq]
        rw [hput]
        show (if q = h0 then ids0 else bucketGet (bucketPut t h ids) q) = _
        rw [if_neg hq, ih, hbg]

theorem getD_append_left {ns ms : List (List Nat)} {j : Nat} (h : j < ns.length) :
    (ns ++ ms).getD j [] = ns.getD j [] := by
  rw [List.getD_eq_getElem _ _ (by simp; omega), List.getD_eq_getElem _ _ h]
  exact List.getElem_append_left h

theorem getD_append_self (ns : List (List Nat)) (b : List Nat) :
    (ns ++ [b]).getD ns.length [] = b := by
  rw [List.getD_eq_getElem _ _ (by simp)]
  simp

theorem getOrAdd_spec {st : Intern} (W : InternWf st) (b : List Nat) :
    InternWf (st.GetOrAdd b).2 ∧
    (st.GetOrAdd b).2.names = (if b ∈ st.names then st.names else st.names ++ [b]) ∧
    (st.GetOrAdd b).1 = idxOf (st.GetOrAdd b).2.names b ∧
    b ∈ (st.GetOrAdd b).2.names := by
  obtain ⟨W1, W2, W3⟩ := W
  cases hfind : (bucketGet st.buckets (fnv1a64 b)).find?
      (fun id => equalSB (st.names.getD id []) b) with
  | some id =>
    have hga : st.GetOrAdd b = (id, st) := by
      rw [Intern.GetOrAdd]
      simp only [hfind]
    have hp0 := List.find?_some hfind
    have hp : equalSB (st.names.getD id []) b = true := hp0
    have hmem : id ∈ bucketGet st.buckets (fnv1a64 b) := List.mem_of_find?_eq_some hfind
    have hid : id < st.names.length := (W1 _ _ hmem).1
    have hname : st.names.getD id [] = b := equalSB_iff.mp hp
    have hbmem : b ∈ st.names := hname ▸ getD_mem hid
    rw [hga]
    refine ⟨⟨W1, W2, W3⟩, by rw [if_pos hbmem], ?_, hbmem⟩
    exact idx_unique_of_nodup W3 hid hname
  | none =>
    have hnotmem : b ∉ st.names := by
      intro hbmem
      have hj : idxOf st.names b < st.names.length := idxOf_lt_of_mem hbmem
      have hgd : st.names.getD (idxOf st.names b) [] = b := getD_idxOf hbmem
      have hreg : idxOf st.names b ∈
          bucketGet st.buckets (fnv1a64 (st.names.getD (idxOf st.names b) [])) := W2 _ hj
      rw [hgd] at hreg
      have := List.find?_eq_none.mp hfind _ hreg
      rw [hgd] at this
      exact this (equalSB_iff.mpr rfl)
    have hga : st.GetOrAdd b =
        (st.names.length,
          ⟨bucketPut st.buckets (fnv1a64 b)
            (bucketGet st.buckets (fnv1a64 b) ++ [st.names.length]),
           st.names ++ [b]⟩) := by
      rw [Intern.GetOrAdd]
      simp only [hfind]
    rw [hga]
    have hlen : (st.names ++ [b]).length = st.names.length + 1 := by simp
    refine ⟨⟨?_, ?_, ?_⟩, by rw [if_neg hnotmem], ?_, ?_⟩
    · intro h id hid
      rw [bucketGet_put] at hid
      by_cases hh : h = fnv1a64 b
      · rw [if_pos hh] at hid
        rcases List.mem_append.mp hid with hold | hnew
        · obtain ⟨hlt, hhash⟩ := W1 _ _ hold
          refine ⟨by rw [hlen]; omega, ?_⟩
          rw [getD_append_left hlt, hhash, hh]
        · have hide : id = st.names.length := by simpa using hnew
          subst hide
          refine ⟨by rw [hlen]; omega, ?_⟩
          rw [getD_append_self, hh]
      · rw [if_neg hh] at hid
        obtain ⟨hlt, hhash⟩ := W1 _ _ hid
        refine ⟨by rw [hlen]; omega, ?_⟩
        rw [getD_append_left hlt, hhash]
    · intro j hj
      rw [hlen] at hj
      rw [bucketGet_put]
      by_cases hjl : j < st.names.length
      · rw [getD_append_left hjl]
        have hold := W2 j hjl
        by_cases hh : fnv1a64 (st.names.getD j []) = fnv1a64 b
        · rw [if_pos hh]
          exact List.mem_append.mpr (Or.inl (hh ▸ hold))
        · rw [if_neg hh]
          exact hold
      · have hje : j = st.names.length := by omega
        subst hje
        rw [getD_append_self, if_pos rfl]
        simp
    · simp [List.nodup_append, W3, hnotmem]
    · exact idxOf_append_self hnotmem |>.symm
    · simp

theorem runIntern_spec :
    ∀ (calls : List (List Nat)) (st : Intern), InternWf st →
      InternWf (runIntern st calls).2 ∧
      (∃ new, (runIntern st calls).2.names = st.names ++ new) ∧
      (∀ x, x ∈ (runIntern st calls).2.names ↔ (x ∈ st.names ∨ x ∈ calls)) ∧
      (runIntern st calls).1.length = calls.length ∧
      (∀ i, i < calls.length →
        (runIntern st calls).1.getD i 0 =
          idxOf (runIntern st calls).2.names (calls.getD i []) ∧
        calls.getD i [] ∈ (runIntern st calls).2.names) := by
  intro calls
  induction calls with
  | nil =>
    intro st W
    refine ⟨W, ⟨[], by simp [runIntern]⟩, by simp [runIntern], by simp [runIntern], ?_⟩
    intro i hi
    simp at hi
  | cons b rest ih =>
    intro st W
    obtain ⟨Wg, hnames, hid, hbmem⟩ := getOrAdd_spec W b
    obtain ⟨Wr, ⟨new, hrnames⟩, hrmem, hrlen, hridx⟩ := ih (Intern.GetOrAdd st b).2 Wg
    have hrun1 : (runIntern st (b :: rest)).1 =
        (Intern.GetOrAdd st b).1 :: (runIntern (Intern.GetOrAdd st b).2 rest).1 := rfl
    have hrun2 : (runIntern st (b :: rest)).2 =
        (runIntern (Intern.GetOrAdd st b).2 rest).2 := rfl
    rw [hrun1, hrun2]
    refine ⟨Wr, ?_, ?_, by simp [hrlen], ?_⟩
    · by_cases hbm : b ∈ st.names
      · rw [if_pos hbm] at hnames
        exact ⟨new, by rw [hrnames, hnames]⟩
      · rw [if_neg hbm] at hnames
        exact ⟨[b] ++ new, by rw [hrnames, hnames, List.append_assoc]⟩
    · intro x
      rw [hrmem x]
      by_cases hbm : b ∈ st.names
      · rw [if_pos hbm] at hnames
        rw [hnames]
        constructor
        · rintro (h1 | h1)
          · exact Or.inl h1
          · exact Or.inr (List.mem_cons_of_mem _ h1)
        · rintro (h1 | h1)
          · exact Or.inl h1
          · rcases List.mem_cons.mp h1 with h2 | h2
            · exact Or.inl (h2 ▸ hbm)
            · exact Or.inr h2
      · rw [if_neg hbm] at hnames
        rw [hnames]
        constructor
        · rintro (h1 | h1)
          · rcases List.mem_append.mp h1 with h2 | h2
            · exact Or.inl h2
            · exact Or.inr (List.mem_cons.mpr (Or.inl (by simpa using h2)))
          · exact Or.inr (List.mem_cons_of_mem _ h1)
        · rintro (h1 | h1)
          · exact Or.inl (List.mem_append.mpr (Or.inl h1))
          · rcases List.mem_cons.mp h1 with h2 | h2
            · exact Or.inl (List.mem_append.mpr (Or.inr (by simp [h2])))
            · exact Or.inr h2
    · intro i hi
      cases i with
      | zero =>
        have hget : ((Intern.GetOrAdd st b).1 ::
            (runIntern (Intern.GetOrAdd st b).2 rest).1).getD 0 0 =
            (Intern.GetOrAdd st b).1 := rfl
        have hcall : (b :: rest).getD 0 [] = b := rfl
        rw [hget, hcall]
        have hbr : b ∈ (runIntern (Intern.GetOrAdd st b).2 rest).2.names := by
          rw [hrnames]
          exact List.mem_append.mpr (Or.inl hbmem)
        refine ⟨?_, hbr⟩
        rw [hid, hrnames, idxOf_append_left hbmem]
      | succ i2 =>
        have hi2 : i2 < rest.length := by
          simp at hi
          omega
        have hget : ((Intern.GetOrAdd st b).1 ::
            (runIntern (Intern.GetOrAdd st b).2 rest).1).getD (i2 + 1) 0 =
            (runIntern (Intern.GetOrAdd st b).2 rest).1.getD i2 0 := rfl
        have hcall : (b :: rest).getD (i2 + 1) [] = rest.getD i2 [] := rfl
        rw [hget, hcall]
        exact hridx i2 hi2

theorem internWf_empty : InternWf Intern.empty := by
  refine ⟨?_, ?_, ?_⟩
  · intro h id hid
    simp [Intern.empty, bucketGet] at hid
  · intro j hj
    simp [Intern.empty] at hj
  · simp [Intern.empty]

/-!
## Merge-order helpers
-/

theorem combineOpt_right_comm (z a b : Option Stat) :
    combineOpt (combineOpt z a) b = combineOpt (combineOpt z b) a := by
  rw [combineOpt_assoc, combineOpt_assoc, combineOpt_comm a b]

theorem foldl_combineOpt_all_none :
    ∀ (os : List (Option Stat)), (∀ j, (hj : j < os.length) → os.get ⟨j, hj⟩ = none) →
      ∀ x : Option Stat, os.foldl combineOpt x = x := by
  intro os
  induction os with
  | nil => intro _ x; rfl
  | cons o t ih =>
    intro hall x
    have h0 : o = none := hall 0 (by simp)
    have ht : ∀ j, (hj : j < t.length) → t.get ⟨j, hj⟩ = none := by
      intro j hj
      exact hall (j + 1) (by simp; omega)
    rw [List.foldl_cons, h0, combineOpt_none_right]
    exact ih ht x

theorem foldl_combineOpt_single :
    ∀ (os : List (Option Stat)) (i : Nat) (hi : i < os.length),
      (∀ j, (hj : j < os.length) → j ≠ i → os.get ⟨j, hj⟩ = none) →
      os.foldl combineOpt none = os.get ⟨i, hi⟩ := by
  intro os
  induction os with
  | nil =>
    intro i hi
    simp at hi
  | cons o t ih =>
    intro i hi hothers
    cases i with
    | zero =>
      have ht : ∀ j, (hj : j < t.length) → t.get ⟨j, hj⟩ = none := by
        intro j hj
        exact hothers (j + 1) (by simp; omega) (by omega)
      rw [List.foldl_cons]
      show t.foldl combineOpt (combineOpt none o) = _
      rw [foldl_combineOpt_all_none t ht]
      cases o <;> rfl
    | succ i2 =>
      have hi2 : i2 < t.length := by
        simp at hi
        omega
      have h0 : o = none := hothers 0 (by simp) (by omega)
      have ht : ∀ j, (hj : j < t.length) → j ≠ i2 → t.get ⟨j, hj⟩ = none := by
        intro j hj hne
        exact hothers (j + 1) (by simp; omega) (by omega)
      rw [List.foldl_cons, h0, combineOpt_none_right]
      exact ih i2 hi2 ht

/-!
## Claims
-/

/-- C1 counterexample: for the input `"A;1"` (one well-formed line, no
trailing newline) and `worker_count = 4` — the claim's own case of more
workers than lines — the pipeline's chunk size is `3 / 4 = 0`, so workers
0–2 all scan `[0, 3)` (each end-alignment runs to the buffer end) and worker
3 skips the whole buffer as a "partial first line": the single line is
counted three times.  The global mapping is not the sequential result, and
the total count is 3, not the 1 well-formed line. -/
theorem C1_counterexample :
    lookupA (globalMap cexC1Data 4) [65] = some ⟨10, 10, 30, 3⟩ ∧
    lookupA (seqMap cexC1Data) [65] = some ⟨10, 10, 10, 1⟩ ∧
    totalCount (globalMap cexC1Data 4) = 3 ∧
    linesWithSemi cexC1Data = 1 := by
  decide

/-- C1 (amended): provided every naive boundary window
`[i*chunk, (i+1)*chunk)` for `1 ≤ i < worker_count` (with
`chunk = length / worker_count`) contains a line-feed byte, the global
mapping produced by the parallel pipeline (partition, per-partition
aggregate, merge) is pointwise identical to sequential processing of the
whole input, and the total count summed across all keys equals the number
of lines of the input containing the delimiter (which is the number of
well-formed lines whenever every delimited line is well-formed). -/
theorem C1_pipeline_eq_sequential (data : List Nat) (w : Nat) (hw : 0 < w)
    (hwin : windowsOk data w) :
    (∀ k, lookupA (globalMap data w) k = lookupA (seqMap data) k) ∧
    totalCount (globalMap data w) = (linesWithSemi data : Int) := by
  constructor
  · intro k
    rw [lookupA_globalMap, lookupA_seqMap, scanChunk_parts hw hwin]
  · rw [totalCount_globalMap, scanChunk_parts hw hwin, scanChunk_length]

/-- C1 witness: the amended theorem applied to `"A;1\nB;2\nC;3\n"` with two
workers. -/
theorem C1_witness :
    lookupA (globalMap wData 2) [66] = lookupA (seqMap wData) [66] ∧
    totalCount (globalMap wData 2) = (linesWithSemi wData : Int) :=
  ⟨(C1_pipeline_eq_sequential wData 2 (by decide) (by decide)).1 [66],
   (C1_pipeline_eq_sequential wData 2 (by decide) (by decide)).2⟩

/-- C2: merging a fixed finite set of well-formed local mappings (nodup
keys, as Go maps are) with the pairwise rule `min/max/sum+/count+` yields
the same global mapping — pointwise per key — in every merge order; the
per-key rule is associative and commutative; and a key present in exactly
one local mapping is copied unchanged into the global mapping. -/
theorem C2_merge_order (ls ls2 : List AMap)
    (hnd : ∀ m ∈ ls, (keysOf m).Nodup) (hperm : ls.Perm ls2) :
    (∀ k, lookupA (mergeAll ls) k = lookupA (mergeAll ls2) k) ∧
    (∀ a b c : Stat, mergeStat (mergeStat a b) c = mergeStat a (mergeStat b c)) ∧
    (∀ a b : Stat, mergeStat a b = mergeStat b a) ∧
    (∀ k i, (hi : i < ls.length) →
      (∀ j, (hj : j < ls.length) → j ≠ i → lookupA (ls.get ⟨j, hj⟩) k = none) →
      lookupA (mergeAll ls) k = lookupA (ls.get ⟨i, hi⟩) k) := by
  have hnd2 : ∀ m ∈ ls2, (keysOf m).Nodup := fun m hm => hnd m (hperm.symm.subset hm)
  have hpt : ∀ (xs : List AMap), (∀ m ∈ xs, (keysOf m).Nodup) → ∀ k,
      lookupA (mergeAll xs) k = (xs.map (fun m => lookupA m k)).foldl combineOpt none := by
    intro xs hx k
    rw [mergeAll, lookupA_mergeAll_aux xs [] k hx]
    have h0 : lookupA ([] : AMap) k = none := rfl
    rw [h0, List.foldl_map]
  refine ⟨?_, mergeStat_assoc, mergeStat_comm, ?_⟩
  · intro k
    rw [hpt ls hnd k, hpt ls2 hnd2 k]
    exact (hperm.map _).foldl_eq' (fun x _ y _ z => combineOpt_right_comm z x y) none
  · intro k i hi hothers
    rw [hpt ls hnd k]
    have hlen : (ls.map (fun m => lookupA m k)).length = ls.length := List.length_map _ _
    have hsingle := foldl_combineOpt_single (ls.map (fun m => lookupA m k)) i
      (by rw [hlen]; exact hi)
      (by
        intro j hj hne
        have hj2 : j < ls.length := by rw [hlen] at hj; exact hj
        have := hothers j hj2 hne
        simp only [List.get_eq_getElem, List.getElem_map]
        simpa using this)
    rw [hsingle]
    simp only [List.get_eq_getElem, List.getElem_map]

/-- C2 witness: two concrete local mappings merged in both orders give the
same accumulator for the shared key. -/
theorem C2_witness :
    lookupA (mergeAll [demoM1, demoM2]) [65] = lookupA (mergeAll [demoM2, demoM1]) [65] :=
  (C2_merge_order [demoM1, demoM2] [demoM2, demoM1] (by decide)
    (List.Perm.swap demoM2 demoM1 [])).1 [65]

/-- C3: for every value byte-sequence of the form `[sign]digits['.'digit]`
whose tenths value is representable in `int32`, the value parser returns
the numeric value scaled by 10 as an integer (so `"-3.2"` parses to `-32`
and `"4"` to `40`), and the parsed integer divided by 10 — the
reformat-to-one-decimal reading — reproduces the original numeric value
exactly as a rational. -/
theorem C3_parser_roundtrip (sb : List Nat) (sv : Int)
    (hs : (sb = [] ∧ sv = 1) ∨ (sb = [43] ∧ sv = 1) ∨ (sb = [45] ∧ sv = -1))
    (ds : List Nat) (hne : ds ≠ []) (hds : ∀ c ∈ ds, isDigit c = true)
    (fb : List Nat) (dv : Nat)
    (hf : (fb = [] ∧ dv = 0) ∨ (∃ d, isDigit d = true ∧ fb = [46, d] ∧ dv = d - 48))
    (hrange : digitsToNat ds * 10 + dv < 2 ^ 31) :
    parseVal (sb ++ (ds ++ fb)) = sv * ((digitsToNat ds * 10 + dv : Nat) : Int) ∧
    (parseVal (sb ++ (ds ++ fb)) : ℚ) / 10 =
      (sv : ℚ) * ((digitsToNat ds : ℚ) + (dv : ℚ) / 10) := by
  have h := parseValRest_wellFormed sb sv hs ds hne hds fb dv hf hrange
  have h1 : parseVal (sb ++ (ds ++ fb)) = sv * ((digitsToNat ds * 10 + dv : Nat) : Int) := by
    rw [parseVal, h]
  refine ⟨h1, ?_⟩
  rw [h1]
  push_cast
  ring

/-- C3 witness: `"-3.2"` parses to `-32` tenths and reformats to `-3.2`. -/
theorem C3_witness :
    parseVal ([45] ++ ([51] ++ [46, 50])) =
      -1 * ((digitsToNat [51] * 10 + 2 : Nat) : Int) ∧
    (parseVal ([45] ++ ([51] ++ [46, 50])) : ℚ) / 10 =
      ((-1 : Int) : ℚ) * ((digitsToNat [51] : ℚ) + ((2 : Nat) : ℚ) / 10) :=
  C3_parser_roundtrip [45] (-1) (Or.inr (Or.inr ⟨rfl, rfl⟩)) [51] (by decide) (by decide)
    [46, 50] 2 (Or.inr ⟨50, rfl, rfl, rfl⟩) (by decide)

/-- C4 counterexample: the line `"C;notanumber\n"` is NOT silently skipped
by `parseChunkIDs`: the value parser finds no digits and yields 0 tenths, so
the line contributes `{min 0, max 0, sum 0, count 1}` to key `"C"`, contrary
to the claim that a line with an unparsable value contributes nothing to any
key's accumulator. -/
theorem C4_counterexample :
    lookupA (parseChunkIDs cexC4Data) [67] = some ⟨0, 0, 0, 1⟩ := by
  decide

/-- C4 (amended): scanning never crashes (all functions are total), and a
line's contribution is exactly `contribLine`: every line missing the
delimiter — including the empty line — contributes nothing to any key and
scanning continues with the rest of the input; but a line that contains the
delimiter always contributes one observation for its key, with the value
parsed leniently (an unparsable value such as `"notanumber"` yields 0
tenths), so such lines are not skipped. -/
theorem C4_malformed_lines (l rest : List Nat) (hnl : (10 : Nat) ∉ l) :
    scanChunk (l ++ 10 :: rest) = (contribLine l).toList ++ scanChunk rest ∧
    ((59 : Nat) ∉ l → contribLine l = none) ∧
    ((59 : Nat) ∈ l → (contribLine l).isSome = true) := by
  refine ⟨?_, ?_, ?_⟩
  · rw [scanChunk_append, scanChunk_single hnl]
  · intro h
    rw [contribLine, lineSemi_none_iff.mpr h]
    rfl
  · intro h
    rw [contribLine_isSome]
    simpa using h

/-- C4 witness: the delimiter-less line `"C"` interleaved before `"A;1"`. -/
theorem C4_witness :
    scanChunk ([67] ++ 10 :: [65, 59, 49]) =
      (contribLine [67]).toList ++ scanChunk [65, 59, 49] ∧
    ((59 : Nat) ∉ [67] → contribLine [67] = none) ∧
    ((59 : Nat) ∈ [67] → (contribLine [67]).isSome = true) :=
  C4_malformed_lines [67] [65, 59, 49] (by decide)

/-- C5: over any sequence of (sequentialised) intern calls from the fresh
interner, two calls receive equal identifiers exactly when their key
byte-sequences are byte-for-byte equal: equal keys always get the same
identifier, distinct keys never collide (bucket candidates are compared
byte-wise with `equalSB`, never trusted on hash equality alone), and each
distinct key keeps its one identifier for the lifetime of the run. -/
theorem C5_interning (calls : List (List Nat)) (i j : Nat)
    (hi : i < calls.length) (hj : j < calls.length) :
    ((runIntern Intern.empty calls).1.getD i 0 =
        (runIntern Intern.empty calls).1.getD j 0 ↔
      calls.getD i [] = calls.getD j []) := by
  obtain ⟨W, _, _, _, hidx⟩ := runIntern_spec calls Intern.empty internWf_empty
  obtain ⟨hgi, hmi⟩ := hidx i hi
  obtain ⟨hgj, hmj⟩ := hidx j hj
  rw [hgi, hgj]
  constructor
  · intro h
    have h1 := getD_idxOf hmi
    have h2 := getD_idxOf hmj
    rw [← h1, ← h2, h]
  · intro h
    rw [h]

/-- C5 witness: interning `"AB"`, `"C"`, `"AB"` — the two `"AB"` calls get
equal identifiers. -/
theorem C5_witness :
    ((runIntern Intern.empty [[65, 66], [67], [65, 66]]).1.getD 0 0 =
        (runIntern Intern.empty [[65, 66], [67], [65, 66]]).1.getD 2 0 ↔
      ([[65, 66], [67], [65, 66]] : List (List Nat)).getD 0 [] =
        [[65, 66], [67], [65, 66]].getD 2 []) :=
  C5_interning [[65, 66], [67], [65, 66]] 0 2 (by decide) (by decide)

/-- C6 counterexample: for `"A;1\nB;2\n"` with two workers, partition 0 ends
at the newline before byte 7 (exclusive) and partition 1 starts after it, so
the separating line-feed byte belongs to neither partition: concatenating
the partitions' byte ranges in order does not reconstruct the input. -/
theorem C6_counterexample : (parts cexC6Data 2).flatten ≠ cexC6Data := by
  decide

/-- C6 (amended): provided every naive boundary window contains a line-feed
byte, the partitions are in order, pairwise disjoint, and cover every byte
of the input except the single line-feed at each interior partition
boundary, which belongs to neither neighbouring partition: re-inserting one
line-feed between consecutive partitions (`glue`) reconstructs the original
input exactly. -/
theorem C6_partition_tiling (data : List Nat) (w : Nat) (hw : 0 < w)
    (hwin : windowsOk data w) :
    glue (parts data w) = data :=
  glue_parts hw hwin

/-- C6 witness: the amended theorem at `"A;1\nB;2\nC;3\n"` with two workers. -/
theorem C6_witness : glue (parts wData 2) = wData :=
  C6_partition_tiling wData 2 (by decide) (by decide)

/-- C7 counterexample: on empty input the `part_000` run returns silently —
a normal exit with no result and no error signal — rather than failing with
a clear error as the claim requires. -/
theorem C7_counterexample :
    mainPart000 [] 4 = Outcome.exitOk none ∧ isFatal (mainPart000 [] 4) = false := by
  decide

/-- C7 (amended): on empty input the `part_000` (and `part_002`) pipeline
returns immediately with no result and a success signal — the silent-success
the claim rules out — while only the `go_v1` variant's `mmapFile` produces
the explicit `"file empty"` error the claim describes. -/
theorem C7_empty_input :
    (∀ w, mainPart000 [] w = Outcome.exitOk none ∧ isFatal (mainPart000 [] w) = false) ∧
    mmapFileCheck 0 = Except.error "file empty" :=
  ⟨fun _ => ⟨rfl, rfl⟩, rfl⟩

/-- C8: a final line with no trailing line-feed is scanned, parsed and
aggregated exactly as if it were terminated — appending the terminator to
any buffer changes neither the observation sequence nor the resulting local
mapping (the end of the buffer acts as the line terminator). -/
theorem C8_no_trailing_newline (buf : List Nat) :
    scanChunk (buf ++ [10]) = scanChunk buf ∧
    seqMap (buf ++ [10]) = seqMap buf := by
  have h : scanChunk (buf ++ [10]) = scanChunk buf := by
    have h2 := scanChunk_append buf []
    have h3 : scanChunk ([] : List Nat) = [] := rfl
    rw [h3, List.append_nil] at h2
    exact h2
  refine ⟨h, ?_⟩
  rw [seqMap, seqMap, parseChunkIDs, parseChunkIDs, h]

/-- C9 counterexample: for `"ab;cd.;\ny"` with three workers the first line
is longer than a chunk: worker 1's start-alignment scan hits its naive end
without finding a newline, so partition 1 is the non-empty range `[6, 7)`
whose preceding byte is `'.'`, not a line-feed — the partition starts inside
a line (and overlaps partition 0). -/
theorem C9_counterexample :
    (chunkRange cexC9Data 3 1).1 = 6 ∧ (chunkRange cexC9Data 3 1).2 = 7 ∧
    cexC9Data.getD ((chunkRange cexC9Data 3 1).1 - 1) 0 ≠ 10 := by
  decide

/-- C9 (amended): provided every naive boundary window contains a line-feed
byte, every partition except the first starts immediately after a line-feed:
its start index is positive and the input byte at `start - 1` is the
line-feed byte, so no line is split across two partitions. -/
theorem C9_line_safety (data : List Nat) (w : Nat) (hwin : windowsOk data w) :
    ∀ i, 1 ≤ i → i < w →
      0 < (chunkRange data w i).1 ∧
      data.getD ((chunkRange data w i).1 - 1) 0 = 10 := by
  intro i h1 h2
  obtain ⟨_, _, hnl, _, _⟩ := nlPos_facts hwin h1 h2
  rw [chunkRange_fst_pos hwin h1 h2]
  exact ⟨by omega, by simpa using hnl⟩

/-- C9 witness: the amended theorem at `"A;1\nB;2\nC;3\n"` with two workers,
partition 1. -/
theorem C9_witness :
    0 < (chunkRange wData 2 1).1 ∧
    wData.getD ((chunkRange wData 2 1).1 - 1) 0 = 10 :=
  C9_line_safety wData 2 (by decide) 1 (by decide) (by decide)

/-- C10: resolving the identifier returned for any key interned after any
(sequentialised) run returns exactly that key's bytes, and the identifier is
dense: strictly below the size of the name table, which holds exactly the
distinct keys interned so far, each once. -/
theorem C10_resolve_dense (calls : List (List Nat)) (b : List Nat) :
    Intern.Name ((runIntern Intern.empty calls).2.GetOrAdd b).2
        ((runIntern Intern.empty calls).2.GetOrAdd b).1 = b ∧
    ((runIntern Intern.empty calls).2.GetOrAdd b).1 <
      ((runIntern Intern.empty calls).2.GetOrAdd b).2.names.length ∧
    ((runIntern Intern.empty calls).2.GetOrAdd b).2.names.Nodup ∧
    (∀ x, x ∈ ((runIntern Intern.empty calls).2.GetOrAdd b).2.names ↔
      (x ∈ calls ∨ x = b)) := by
  obtain ⟨W, _, hmem, _, _⟩ := runIntern_spec calls Intern.empty internWf_empty
  obtain ⟨Wg, hnames, hid, hbmem⟩ := getOrAdd_spec W b
  refine ⟨?_, ?_, Wg.2.2, ?_⟩
  · rw [Intern.Name, hid]
    exact getD_idxOf hbmem
  · rw [hid]
    exact idxOf_lt_of_mem hbmem
  · intro x
    rw [hnames]
    by_cases hbm : b ∈ (runIntern Intern.empty calls).2.names
    · rw [if_pos hbm]
      rw [hmem x]
      have hbc : b ∈ calls := by
        have h2 := (hmem b).mp hbm
        simpa [Intern.empty] using h2
      simp only [Intern.empty, List.not_mem_nil, false_or]
      constructor
      · intro h
        exact Or.inl h
      · rintro (h | h)
        · exact h
        · exact h ▸ hbc
    · rw [if_neg hbm]
      constructor
      · intro hx
        rcases List.mem_append.mp hx with h1 | h1
        · have h2 := (hmem x).mp h1
          simp only [Intern.empty, List.not_mem_nil, false_or] at h2
          exact Or.inl h2
        · simp at h1
          exact Or.inr h1
      · rintro (h | h)
        · exact List.mem_append.mpr (Or.inl ((hmem x).mpr (by
            simp only [Intern.empty, List.not_mem_nil, false_or]
            exact h)))
        · exact List.mem_append.mpr (Or.inr (by simp [h]))
